import Mathlib

/-
Verification of the Playfair cipher engine (`src/lib.rs`).

Bytes are modelled as natural numbers below 256; `&str` values become
`List Nat` of their UTF-8 bytes.  `u8` wrapping subtraction `x.wrapping_sub k`
is modelled as `(x + 256 - k) % 256`, which agrees with the machine
operation for byte inputs.  The recursive pair substitution is embedded with
an explicit fuel argument (the source's recursion is not structurally
terminating for arbitrary corrupted squares); fuel 2 corresponds to the
source's call plus its single allowed re-dispatch, and fuel-independence for
squares built by `new` is proved below.
-/

namespace Playfair

/-- Engine state from the source: `positions` maps a merged letter index
(0 to 24) to an encoded cell `row*8+col` (rows and columns 1 to 5);
`letters` maps an encoded cell of the bordered 7x7 grid (inside a 64-entry
table) to the byte stored there. -/
structure PlayfairCipher where
  positions : List Nat
  letters : List Nat

/-- One step of the key-scanning loop of `PlayfairCipher::new`: state is
`(positions, letters, row, col)`; invalid or already-placed letters are
skipped, otherwise the letter is assigned to the cursor cell and the cursor
advances. -/
def fillKeyStep (st : List Nat × List Nat × Nat × Nat) (letter : Nat) :
    List Nat × List Nat × Nat × Nat :=
  let positions := st.1
  let letters := st.2.1
  let row := st.2.2.1
  let col := st.2.2.2
  let letterIndex :=
    if letter < 106 then (letter + 256 - 97) % 256 else (letter + 256 - 98) % 256
  if 25 ≤ letterIndex then st
  else if positions.getD letterIndex 0 ≠ 255 then st
  else
    let encodedPos := row * 8 + col
    let positions := positions.set letterIndex encodedPos
    let letters := letters.set encodedPos (if letter = 106 then 105 else letter)
    if col + 1 = 6 then (positions, letters, row + 1, 1)
    else (positions, letters, row, col + 1)

/-- One step of the alphabetical fill loop of `PlayfairCipher::new`:
still-unassigned letter indices are assigned to the advancing cursor and
their canonical letter (skipping the letter j) is stored. -/
def fillRestStep (st : List Nat × List Nat × Nat × Nat) (letterIndex : Nat) :
    List Nat × List Nat × Nat × Nat :=
  let positions := st.1
  let letters := st.2.1
  let row := st.2.2.1
  let col := st.2.2.2
  if positions.getD letterIndex 0 ≠ 255 then st
  else
    let encodedPos := row * 8 + col
    let positions := positions.set letterIndex encodedPos
    let letters :=
      letters.set encodedPos (if letterIndex ≤ 8 then letterIndex + 97 else letterIndex + 98)
    if col + 1 = 6 then (positions, letters, row + 1, 1)
    else (positions, letters, row, col + 1)

/-- The row part of the wrap-border pass: for each row 1 to 5, column 0 is
copied from column 5 and column 6 from column 1. -/
def setRowBorders (letters : List Nat) : List Nat :=
  (List.range' 1 5).foldl
    (fun ls row =>
      let ls1 := ls.set (row * 8) (ls.getD (row * 8 + 5) 0)
      ls1.set (row * 8 + 6) (ls1.getD (row * 8 + 1) 0))
    letters

/-- The column part of the wrap-border pass: for each column 0 to 6, row 0 is
copied from row 5 and row 6 from row 1. -/
def setColBorders (letters : List Nat) : List Nat :=
  (List.range 7).foldl
    (fun ls col =>
      let ls1 := ls.set col (ls.getD (col + 5 * 8) 0)
      ls1.set (col + 6 * 8) (ls1.getD (col + 8) 0))
    letters

/-- `PlayfairCipher::new`: build the square from the key bytes, fill the rest
of the alphabet, then populate the wrap border. -/
def PlayfairCipher.new (key : List Nat) : PlayfairCipher :=
  let st0 : List Nat × List Nat × Nat × Nat :=
    (List.replicate 25 255, List.replicate 64 0, 1, 1)
  let st1 := key.foldl fillKeyStep st0
  let st2 := (List.range 25).foldl fillRestStep st1
  ⟨st2.1, setColBorders (setRowBorders st2.2.1)⟩

/-- `PlayfairCipher::encode_or_decode_pair`, with explicit fuel for the
re-dispatch in the identical-position case (`X_INDEX = 22`). -/
def PlayfairCipher.encode_or_decode_pair (c : PlayfairCipher) :
    Nat → Nat → Nat → Bool → Option (Nat × Nat)
  | 0, _, _, _ => none
  | fuel + 1, a, b, isEncode =>
    let posA := c.positions.getD a 0
    let posB := c.positions.getD b 0
    if posA = posB then
      if a = 22 then some (a, b)
      else c.encode_or_decode_pair fuel a 22 isEncode
    else if posA.land 7 = posB.land 7 then
      if isEncode then some (c.letters.getD (posA + 8) 0, c.letters.getD (posB + 8) 0)
      else some (c.letters.getD (posA - 8) 0, c.letters.getD (posB - 8) 0)
    else if posA.land 56 = posB.land 56 then
      if isEncode then some (c.letters.getD (posA + 1) 0, c.letters.getD (posB + 1) 0)
      else some (c.letters.getD (posA - 1) 0, c.letters.getD (posB - 1) 0)
    else
      some (c.letters.getD ((posA.land 56).lor (posB.land 7)) 0,
            c.letters.getD ((posB.land 56).lor (posA.land 7)) 0)

/-- The for-loop of `PlayfairCipher::encode_or_decode`: walks the input
bytes keeping the output built so far (`result`) and the index of a pending
unpaired letter (`last_pos`), then resolves a leftover pending letter against
the filler index.  Returns `none` only if the fueled pair substitution runs
out of fuel. -/
def encodeOrDecodeLoop (c : PlayfairCipher) (isEncode : Bool) :
    List Nat → List Nat → Option Nat → Option (List Nat)
  | [], result, none => some result
  | [], result, some pos =>
    match c.encode_or_decode_pair 2 (result.getD pos 0) 22 isEncode with
    | none => none
    | some (a, b) => some ((result.set pos a) ++ [b])
  | ch :: rest, result, lastPos =>
    let letterIndex := (ch + 256 - 97) % 256
    if 26 ≤ letterIndex then encodeOrDecodeLoop c isEncode rest (result ++ [ch]) lastPos
    else
      let letterIndex := if letterIndex ≤ 8 then letterIndex else letterIndex - 1
      match lastPos with
      | none => encodeOrDecodeLoop c isEncode rest (result ++ [letterIndex]) (some result.length)
      | some pos =>
        if result.getD pos 0 = letterIndex then
          match c.encode_or_decode_pair 2 (result.getD pos 0) 22 isEncode with
          | none => none
          | some (a, b) =>
            encodeOrDecodeLoop c isEncode rest ((result.set pos a) ++ [b, letterIndex])
              (some (result.length + 1))
        else
          match c.encode_or_decode_pair 2 (result.getD pos 0) letterIndex isEncode with
          | none => none
          | some (a, b) => encodeOrDecodeLoop c isEncode rest ((result.set pos a) ++ [b]) none

/-- Continuation-byte test of UTF-8 validation. -/
def contB (b : Nat) : Bool := decide (128 ≤ b ∧ b ≤ 191)

/-- Consume one valid UTF-8 scalar-value encoding from the front of a byte
list (RFC 3629: overlong, surrogate and out-of-range forms rejected),
returning the remainder, or `none` when the front is not a valid encoding. -/
def utf8Chunk : List Nat → Option (List Nat)
  | [] => none
  | b :: rest =>
    if b < 128 then some rest
    else if 194 ≤ b ∧ b ≤ 223 then
      match rest with
      | c :: rest2 => if contB c then some rest2 else none
      | [] => none
    else if b = 224 then
      match rest with
      | c :: d :: rest2 => if decide (160 ≤ c ∧ c ≤ 191) && contB d then some rest2 else none
      | _ => none
    else if 225 ≤ b ∧ b ≤ 236 then
      match rest with
      | c :: d :: rest2 => if contB c && contB d then some rest2 else none
      | _ => none
    else if b = 237 then
      match rest with
      | c :: d :: rest2 => if decide (128 ≤ c ∧ c ≤ 159) && contB d then some rest2 else none
      | _ => none
    else if 238 ≤ b ∧ b ≤ 239 then
      match rest with
      | c :: d :: rest2 => if contB c && contB d then some rest2 else none
      | _ => none
    else if b = 240 then
      match rest with
      | c :: d :: e :: rest2 =>
        if decide (144 ≤ c ∧ c ≤ 191) && contB d && contB e then some rest2 else none
      | _ => none
    else if 241 ≤ b ∧ b ≤ 243 then
      match rest with
      | c :: d :: e :: rest2 => if contB c && contB d && contB e then some rest2 else none
      | _ => none
    else if b = 244 then
      match rest with
      | c :: d :: e :: rest2 =>
        if decide (128 ≤ c ∧ c ≤ 143) && contB d && contB e then some rest2 else none
      | _ => none
    else none

/-- Fueled UTF-8 validation driver: repeatedly consume chunks.  Since every
chunk takes at least one byte, fuel equal to the list length suffices. -/
def isUtf8Fuel : Nat → List Nat → Bool
  | _, [] => true
  | 0, _ :: _ => false
  | fuel + 1, b :: rest =>
    match utf8Chunk (b :: rest) with
    | none => false
    | some r => isUtf8Fuel fuel r

/-- UTF-8 validity of a byte list, as enforced by `String::from_utf8`. -/
def isUtf8 (l : List Nat) : Bool := isUtf8Fuel l.length l

/-- `PlayfairCipher::encode_or_decode`: run the loop, then reassemble the
byte stream into text, failing exactly when the bytes are not valid UTF-8
(the `String::from_utf8` call of the source). -/
def PlayfairCipher.encode_or_decode (c : PlayfairCipher) (text : List Nat)
    (isEncode : Bool) : Option (List Nat) :=
  match encodeOrDecodeLoop c isEncode text [] none with
  | none => none
  | some out => if isUtf8 out then some out else none

/-- `PlayfairCipher::encode`. -/
def PlayfairCipher.encode (c : PlayfairCipher) (text : List Nat) : Option (List Nat) :=
  c.encode_or_decode text true

/-- `PlayfairCipher::decode`. -/
def PlayfairCipher.decode (c : PlayfairCipher) (text : List Nat) : Option (List Nat) :=
  c.encode_or_decode text false

/-- The merged letter index of an input byte, as computed by the loop for
bytes it recognises as cipher letters. -/
def byteIndex (b : Nat) : Nat :=
  let li := (b + 256 - 97) % 256
  if li ≤ 8 then li else li - 1

/-- The canonical byte stored in the square for a merged letter index
(the letter j is skipped, index 8 holds the letter i). -/
def canonLetter (a : Nat) : Nat := if a ≤ 8 then a + 97 else a + 98

/-- Whether a byte is a lowercase ASCII letter, the loop's notion of cipher
content for byte inputs. -/
def isLowerAlpha (b : Nat) : Bool := decide (97 ≤ b ∧ b ≤ 122)

/-- Count of lowercase alphabetic bytes in a list. -/
def countAlpha (l : List Nat) : Nat := l.countP isLowerAlpha

/-- The least even number at least `n`. -/
def roundUpEven (n : Nat) : Nat := 2 * ((n + 1) / 2)

/-- The merged-index stream of the cipher letters of a byte list. -/
def letterStream (text : List Nat) : List Nat := (text.filter isLowerAlpha).map byteIndex

/-- The letter index still pending in the loop state, as a (zero- or
one-element) prefix of the stream of letters yet to be substituted. -/
def pendStream (R : List Nat) (p : Option Nat) : List Nat :=
  match p with
  | none => []
  | some i => [R.getD i 0]

/-- Replace a lowercase j byte by an i byte, leaving all other bytes
unchanged. -/
def jmap (b : Nat) : Nat := if b = 106 then 105 else b

/-- An encoded cell lies in the 5x5 interior of the bordered grid. -/
def Interior (p : Nat) : Prop := 1 ≤ p / 8 ∧ p / 8 ≤ 5 ∧ 1 ≤ p % 8 ∧ p % 8 ≤ 5

instance (p : Nat) : Decidable (Interior p) := by unfold Interior; infer_instance

/-- The encoded cursor cell after `i` assignments in `new`. -/
def encCell (i : Nat) : Nat := (1 + i / 5) * 8 + (1 + i % 5)

/-- Structural invariants of a square built by `new`, from which all
properties of the substitution are derived. -/
structure WellBuilt (c : PlayfairCipher) : Prop where
  posLen : c.positions.length = 25
  letLen : c.letters.length = 64
  interior : ∀ a, a < 25 → Interior (c.positions.getD a 0)
  inj : ∀ a, a < 25 → ∀ b, b < 25 → c.positions.getD a 0 = c.positions.getD b 0 → a = b
  letterAt : ∀ a, a < 25 → c.letters.getD (c.positions.getD a 0) 0 = canonLetter a
  borderRowL : ∀ r, 1 ≤ r → r ≤ 5 → c.letters.getD (r * 8) 0 = c.letters.getD (r * 8 + 5) 0
  borderRowR : ∀ r, 1 ≤ r → r ≤ 5 → c.letters.getD (r * 8 + 6) 0 = c.letters.getD (r * 8 + 1) 0
  borderTop : ∀ cc, cc ≤ 6 → c.letters.getD cc 0 = c.letters.getD (cc + 40) 0
  borderBot : ∀ cc, cc ≤ 6 → c.letters.getD (cc + 48) 0 = c.letters.getD (cc + 8) 0

/-- Valid UTF-8 as an inductive chunk structure, equivalent to `isUtf8`. -/
inductive Utf8 : List Nat → Prop
  | nil : Utf8 []
  | one {b : Nat} {rest : List Nat} : b < 128 → Utf8 rest → Utf8 (b :: rest)
  | two {b c : Nat} {rest : List Nat} : 194 ≤ b → b ≤ 223 → 128 ≤ c → c ≤ 191 →
      Utf8 rest → Utf8 (b :: c :: rest)
  | threeLow {c d : Nat} {rest : List Nat} : 160 ≤ c → c ≤ 191 → 128 ≤ d → d ≤ 191 →
      Utf8 rest → Utf8 (224 :: c :: d :: rest)
  | threeMid {b c d : Nat} {rest : List Nat} : 225 ≤ b → b ≤ 236 → 128 ≤ c → c ≤ 191 →
      128 ≤ d → d ≤ 191 → Utf8 rest → Utf8 (b :: c :: d :: rest)
  | threeSur {c d : Nat} {rest : List Nat} : 128 ≤ c → c ≤ 159 → 128 ≤ d → d ≤ 191 →
      Utf8 rest → Utf8 (237 :: c :: d :: rest)
  | threeHi {b c d : Nat} {rest : List Nat} : 238 ≤ b → b ≤ 239 → 128 ≤ c → c ≤ 191 →
      128 ≤ d → d ≤ 191 → Utf8 rest → Utf8 (b :: c :: d :: rest)
  | fourLow {c d e : Nat} {rest : List Nat} : 144 ≤ c → c ≤ 191 → 128 ≤ d → d ≤ 191 →
      128 ≤ e → e ≤ 191 → Utf8 rest → Utf8 (240 :: c :: d :: e :: rest)
  | fourMid {b c d e : Nat} {rest : List Nat} : 241 ≤ b → b ≤ 243 → 128 ≤ c → c ≤ 191 →
      128 ≤ d → d ≤ 191 → 128 ≤ e → e ≤ 191 → Utf8 rest → Utf8 (b :: c :: d :: e :: rest)
  | fourHi {c d e : Nat} {rest : List Nat} : 128 ≤ c → c ≤ 143 → 128 ≤ d → d ≤ 191 →
      128 ≤ e → e ≤ 191 → Utf8 rest → Utf8 (244 :: c :: d :: e :: rest)

/-- Relation: the second list is the first with extra bytes of value 22
inserted at arbitrary places. -/
inductive Ins22 : List Nat → List Nat → Prop
  | nil : Ins22 [] []
  | cons (x : Nat) {xs ys : List Nat} : Ins22 xs ys → Ins22 (x :: xs) (x :: ys)
  | ins {xs ys : List Nat} : Ins22 xs ys → Ins22 xs (22 :: ys)

/-- A byte list consisting of aligned digraphs whose two letters get
distinct merged indices. -/
inductive Paired : List Nat → Prop
  | nil : Paired []
  | pair (a b : Nat) {rest : List Nat} : byteIndex a ≠ byteIndex b → Paired rest →
      Paired (a :: b :: rest)

/-- The non-alphabetic bytes already fixed in the partially built output:
all of the result except a pending slot. -/
def doneOf (result : List Nat) (lastPos : Option Nat) : List Nat :=
  match lastPos with
  | none => result.filter (fun b => !isLowerAlpha b)
  | some i =>
    (result.take i).filter (fun b => !isLowerAlpha b) ++
      (result.drop (i + 1)).filter (fun b => !isLowerAlpha b)

/-- A text consisting only of cipher letters, with no j byte. -/
def LettersOnly (l : List Nat) : Prop := ∀ b ∈ l, 97 ≤ b ∧ b ≤ 122 ∧ b ≠ 106

/-- Pending-slot invariant of the loop state. -/
def PendInv (result : List Nat) (lastPos : Option Nat) : Prop :=
  ∀ i, lastPos = some i → i < result.length ∧ result.getD i 0 < 25

/-- Number of assigned entries of a positions table. -/
def assignedCount (positions : List Nat) : Nat :=
  positions.countP (fun v => decide (v ≠ 255))

/-- Invariant of the two fill loops of `new`: the state
`(positions, letters, row, col)` has `n` assigned indices occupying exactly
the first `n` cursor cells, injectively, with the canonical letter stored at
each assigned cell, and the cursor at cell `n`. -/
def FillInv (st : List Nat × List Nat × Nat × Nat) : Prop :=
  st.1.length = 25 ∧ st.2.1.length = 64 ∧
  st.2.2.1 = 1 + assignedCount st.1 / 5 ∧
  st.2.2.2 = 1 + assignedCount st.1 % 5 ∧
  (∀ a, a < 25 → st.1.getD a 0 ≠ 255 →
    ∃ i, i < assignedCount st.1 ∧ st.1.getD a 0 = encCell i) ∧
  (∀ a, a < 25 → ∀ b, b < 25 → st.1.getD a 0 ≠ 255 →
    st.1.getD a 0 = st.1.getD b 0 → a = b) ∧
  (∀ a, a < 25 → st.1.getD a 0 ≠ 255 →
    st.2.1.getD (st.1.getD a 0) 0 = canonLetter a)

/-- Invariant of the alphabetical fill loop: `FillInv` plus all indices
below the loop counter assigned. -/
def Fill2Inv (j : Nat) (st : List Nat × List Nat × Nat × Nat) : Prop :=
  FillInv st ∧ ∀ a, a < j → st.1.getD a 0 ≠ 255

/-- UTF-8 bytes of the key "playfair example". -/
def keyWikipedia : List Nat :=
  [112, 108, 97, 121, 102, 97, 105, 114, 32, 101, 120, 97, 109, 112, 108, 101]

/-- UTF-8 bytes of the plaintext "hide the gold in the tree stump". -/
def plainWikipedia : List Nat :=
  [104, 105, 100, 101, 32, 116, 104, 101, 32, 103, 111, 108, 100, 32, 105, 110, 32,
   116, 104, 101, 32, 116, 114, 101, 101, 32, 115, 116, 117, 109, 112]

/-- UTF-8 bytes of the ciphertext "bmod zbx dnab ek udm uixmm ouvif". -/
def cipherWikipedia : List Nat :=
  [98, 109, 111, 100, 32, 122, 98, 120, 32, 100, 110, 97, 98, 32, 101, 107, 32, 117,
   100, 109, 32, 117, 105, 120, 109, 109, 32, 111, 117, 118, 105, 102]

/-- UTF-8 bytes of the key "gravity falls". -/
def keyGravity : List Nat := [103, 114, 97, 118, 105, 116, 121, 32, 102, 97, 108, 108, 115]

/-- UTF-8 bytes of the plaintext "attack at dawn". -/
def plainGravity : List Nat := [97, 116, 116, 97, 99, 107, 32, 97, 116, 32, 100, 97, 119, 110]

/-- UTF-8 bytes of the ciphertext "gffgbm gf nfaw". -/
def cipherGravity : List Nat := [103, 102, 102, 103, 98, 109, 32, 103, 102, 32, 110, 102, 97, 119]

/-! ### List access helpers -/

theorem getD_set (l : List Nat) (i j v : Nat) :
    (l.set i v).getD j 0 = if j = i ∧ i < l.length then v else l.getD j 0 := by
  induction l generalizing i j with
  | nil => simp
  | cons a t ih =>
    cases i with
    | zero =>
      cases j with
      | zero => simp
      | succ j' => simp
    | succ i' =>
      cases j with
      | zero => simp
      | succ j' =>
        simp only [List.set_cons_succ, List.getD_cons_succ, ih, List.length_cons]
        by_cases h : j' = i' ∧ i' < t.length
        · rw [if_pos h, if_pos (by omega)]
        · rw [if_neg h, if_neg (by omega)]

theorem getD_app (l₁ l₂ : List Nat) (i : Nat) :
    (l₁ ++ l₂).getD i 0 = if i < l₁.length then l₁.getD i 0 else l₂.getD (i - l₁.length) 0 := by
  by_cases h : i < l₁.length
  · rw [if_pos h, List.getD_append _ _ _ _ h]
  · rw [if_neg h, List.getD_append_right _ _ _ _ (by omega)]

theorem countP_set_ff (l : List Nat) (i v : Nat) (p : Nat → Bool) (hi : i < l.length)
    (hold : p (l.getD i 0) = false) (hnew : p v = false) :
    (l.set i v).countP p = l.countP p := by
  induction l generalizing i with
  | nil => simp at hi
  | cons a t ih =>
    cases i with
    | zero => simp only [List.getD_cons_zero] at hold; simp [List.countP_cons, hold, hnew]
    | succ i' =>
      simp only [List.getD_cons_succ] at hold
      simp only [List.set_cons_succ, List.countP_cons]
      rw [ih i' (by simpa using hi) hold]

theorem countP_set_ft (l : List Nat) (i v : Nat) (p : Nat → Bool) (hi : i < l.length)
    (hold : p (l.getD i 0) = false) (hnew : p v = true) :
    (l.set i v).countP p = l.countP p + 1 := by
  induction l generalizing i with
  | nil => simp at hi
  | cons a t ih =>
    cases i with
    | zero =>
      simp only [List.getD_cons_zero] at hold
      simp [List.countP_cons, hold, hnew]
    | succ i' =>
      simp only [List.getD_cons_succ] at hold
      simp only [List.set_cons_succ, List.countP_cons]
      rw [ih i' (by simpa using hi) hold]
      by_cases hp : p a <;> simp [hp]

/-! ### UTF-8 validity -/

theorem utf8_isUtf8Fuel {l : List Nat} (h : Utf8 l) :
    ∀ f, l.length ≤ f → isUtf8Fuel f l = true := by
  induction h with
  | nil => intro f _; cases f <;> rfl
  | @one b rest hb hrest ih =>
    intro f hf
    cases f with
    | zero => simp at hf
    | succ f' =>
      have hc : utf8Chunk (b :: rest) = some rest := by
        simp only [utf8Chunk]; rw [if_pos hb]
      simp only [isUtf8Fuel, hc]
      exact ih f' (by simp at hf; omega)
  | @two b c rest h1 h2 h3 h4 hrest ih =>
    intro f hf
    cases f with
    | zero => simp at hf
    | succ f' =>
      have hcb : contB c = true := by simp only [contB, decide_eq_true_eq]; omega
      have hc : utf8Chunk (b :: c :: rest) = some rest := by
        simp only [utf8Chunk]
        rw [if_neg (by omega), if_pos ⟨h1, h2⟩]
        show (if contB c then some rest else none) = some rest
        rw [hcb]; rfl
      simp only [isUtf8Fuel, hc]
      exact ih f' (by simp at hf; omega)
  | @threeLow c d rest h1 h2 h3 h4 hrest ih =>
    intro f hf
    cases f with
    | zero => simp at hf
    | succ f' =>
      have hc : utf8Chunk (224 :: c :: d :: rest) = some rest := by
        simp only [utf8Chunk]
        norm_num
        simp [contB]
        omega
      simp only [isUtf8Fuel, hc]
      exact ih f' (by simp at hf; omega)
  | @threeMid b c d rest h1 h2 h3 h4 h5 h6 hrest ih =>
    intro f hf
    cases f with
    | zero => simp at hf
    | succ f' =>
      have hcb : (contB c && contB d) = true := by
        simp only [contB, Bool.and_eq_true, decide_eq_true_eq]; omega
      have hc : utf8Chunk (b :: c :: d :: rest) = some rest := by
        simp only [utf8Chunk]
        rw [if_neg (by omega), if_neg (by omega), if_neg (by omega), if_pos ⟨h1, h2⟩]
        show (if contB c && contB d then some rest else none) = some rest
        rw [hcb]; rfl
      simp only [isUtf8Fuel, hc]
      exact ih f' (by simp at hf; omega)
  | @threeSur c d rest h1 h2 h3 h4 hrest ih =>
    intro f hf
    cases f with
    | zero => simp at hf
    | succ f' =>
      have hc : utf8Chunk (237 :: c :: d :: rest) = some rest := by
        simp only [utf8Chunk]
        norm_num
        simp [contB]
        omega
      simp only [isUtf8Fuel, hc]
      exact ih f' (by simp at hf; omega)
  | @threeHi b c d rest h1 h2 h3 h4 h5 h6 hrest ih =>
    intro f hf
    cases f with
    | zero => simp at hf
    | succ f' =>
      have hcb : (contB c && contB d) = true := by
        simp only [contB, Bool.and_eq_true, decide_eq_true_eq]; omega
      have hc : utf8Chunk (b :: c :: d :: rest) = some rest := by
        simp only [utf8Chunk]
        rw [if_neg (by omega), if_neg (by omega), if_neg (by omega), if_neg (by omega),
          if_neg (by omega), if_pos ⟨h1, h2⟩]
        show (if contB c && contB d then some rest else none) = some rest
        rw [hcb]; rfl
      simp only [isUtf8Fuel, hc]
      exact ih f' (by simp at hf; omega)
  | @fourLow c d e rest h1 h2 h3 h4 h5 h6 hrest ih =>
    intro f hf
    cases f with
    | zero => simp at hf
    | succ f' =>
      have hc : utf8Chunk (240 :: c :: d :: e :: rest) = some rest := by
        simp only [utf8Chunk]
        norm_num
        simp [contB]
        omega
      simp only [isUtf8Fuel, hc]
      exact ih f' (by simp at hf; omega)
  | @fourMid b c d e rest h1 h2 h3 h4 h5 h6 h7 h8 hrest ih =>
    intro f hf
    cases f with
    | zero => simp at hf
    | succ f' =>
      have hcb : (contB c && contB d && contB e) = true := by
        simp only [contB, Bool.and_eq_true, decide_eq_true_eq]; omega
      have hc : utf8Chunk (b :: c :: d :: e :: rest) = some rest := by
        simp only [utf8Chunk]
        rw [if_neg (by omega), if_neg (by omega), if_neg (by omega), if_neg (by omega),
          if_neg (by omega), if_neg (by omega), if_neg (by omega), if_pos ⟨h1, h2⟩]
        show (if contB c && contB d && contB e then some rest else none) = some rest
        rw [hcb]; rfl
      simp only [isUtf8Fuel, hc]
      exact ih f' (by simp at hf; omega)
  | @fourHi c d e rest h1 h2 h3 h4 h5 h6 hrest ih =>
    intro f hf
    cases f with
    | zero => simp at hf
    | succ f' =>
      have hc : utf8Chunk (244 :: c :: d :: e :: rest) = some rest := by
        simp only [utf8Chunk]
        norm_num
        simp [contB]
        omega
      simp only [isUtf8Fuel, hc]
      exact ih f' (by simp at hf; omega)

theorem utf8_isUtf8 {l : List Nat} (h : Utf8 l) : isUtf8 l = true :=
  utf8_isUtf8Fuel h l.length le_rfl

theorem utf8_append {xs ys : List Nat} (hx : Utf8 xs) (hy : Utf8 ys) : Utf8 (xs ++ ys) := by
  induction hx with
  | nil => exact hy
  | one h _ ih => exact Utf8.one h ih
  | two h1 h2 h3 h4 _ ih => exact Utf8.two h1 h2 h3 h4 ih
  | threeLow h1 h2 h3 h4 _ ih => exact Utf8.threeLow h1 h2 h3 h4 ih
  | threeMid h1 h2 h3 h4 h5 h6 _ ih => exact Utf8.threeMid h1 h2 h3 h4 h5 h6 ih
  | threeSur h1 h2 h3 h4 _ ih => exact Utf8.threeSur h1 h2 h3 h4 ih
  | threeHi h1 h2 h3 h4 h5 h6 _ ih => exact Utf8.threeHi h1 h2 h3 h4 h5 h6 ih
  | fourLow h1 h2 h3 h4 h5 h6 _ ih => exact Utf8.fourLow h1 h2 h3 h4 h5 h6 ih
  | fourMid h1 h2 h3 h4 h5 h6 h7 h8 _ ih => exact Utf8.fourMid h1 h2 h3 h4 h5 h6 h7 h8 ih
  | fourHi h1 h2 h3 h4 h5 h6 _ ih => exact Utf8.fourHi h1 h2 h3 h4 h5 h6 ih

theorem utf8_of_ascii {l : List Nat} (h : ∀ b ∈ l, b < 128) : Utf8 l := by
  induction l with
  | nil => exact Utf8.nil
  | cons a t ih =>
    exact Utf8.one (h a (by simp)) (ih fun b hb => h b (by simp [hb]))

theorem utf8_bytes_lt {l : List Nat} (h : Utf8 l) : ∀ b ∈ l, b < 256 := by
  induction h with
  | nil => simp
  | one hb _ ih =>
    intro x hx
    simp only [List.mem_cons] at hx
    rcases hx with rfl | h
    · omega
    · exact ih x h
  | two h1 h2 h3 h4 _ ih =>
    intro x hx
    simp only [List.mem_cons] at hx
    rcases hx with rfl | rfl | h
    · omega
    · omega
    · exact ih x h
  | threeLow h1 h2 h3 h4 _ ih =>
    intro x hx
    simp only [List.mem_cons] at hx
    rcases hx with rfl | rfl | rfl | h
    · omega
    · omega
    · omega
    · exact ih x h
  | threeMid h1 h2 h3 h4 h5 h6 _ ih =>
    intro x hx
    simp only [List.mem_cons] at hx
    rcases hx with rfl | rfl | rfl | h
    · omega
    · omega
    · omega
    · exact ih x h
  | threeSur h1 h2 h3 h4 _ ih =>
    intro x hx
    simp only [List.mem_cons] at hx
    rcases hx with rfl | rfl | rfl | h
    · omega
    · omega
    · omega
    · exact ih x h
  | threeHi h1 h2 h3 h4 h5 h6 _ ih =>
    intro x hx
    simp only [List.mem_cons] at hx
    rcases hx with rfl | rfl | rfl | h
    · omega
    · omega
    · omega
    · exact ih x h
  | fourLow h1 h2 h3 h4 h5 h6 _ ih =>
    intro x hx
    simp only [List.mem_cons] at hx
    rcases hx with rfl | rfl | rfl | rfl | h
    · omega
    · omega
    · omega
    · omega
    · exact ih x h
  | fourMid h1 h2 h3 h4 h5 h6 h7 h8 _ ih =>
    intro x hx
    simp only [List.mem_cons] at hx
    rcases hx with rfl | rfl | rfl | rfl | h
    · omega
    · omega
    · omega
    · omega
    · exact ih x h
  | fourHi h1 h2 h3 h4 h5 h6 _ ih =>
    intro x hx
    simp only [List.mem_cons] at hx
    rcases hx with rfl | rfl | rfl | rfl | h
    · omega
    · omega
    · omega
    · omega
    · exact ih x h

theorem loop_nil_none (c : PlayfairCipher) (e : Bool) (R : List Nat) :
    encodeOrDecodeLoop c e [] R none = some R := rfl

theorem loop_nil_some (c : PlayfairCipher) (e : Bool) (R : List Nat) (i x y : Nat)
    (h : c.encode_or_decode_pair 2 (R.getD i 0) 22 e = some (x, y)) :
    encodeOrDecodeLoop c e [] R (some i) = some ((R.set i x) ++ [y]) := by
  simp only [encodeOrDecodeLoop, h]

theorem loop_copy (c : PlayfairCipher) (e : Bool) (ch : Nat) (rest R : List Nat)
    (p : Option Nat) (h : 26 ≤ (ch + 256 - 97) % 256) :
    encodeOrDecodeLoop c e (ch :: rest) R p = encodeOrDecodeLoop c e rest (R ++ [ch]) p := by
  simp only [encodeOrDecodeLoop]
  rw [if_pos h]

theorem loop_letter_none (c : PlayfairCipher) (e : Bool) (ch : Nat) (rest R : List Nat)
    (h : (ch + 256 - 97) % 256 < 26) :
    encodeOrDecodeLoop c e (ch :: rest) R none =
      encodeOrDecodeLoop c e rest (R ++ [byteIndex ch]) (some R.length) := by
  simp only [encodeOrDecodeLoop, byteIndex]
  rw [if_neg (by omega)]

theorem loop_pair (c : PlayfairCipher) (e : Bool) (ch : Nat) (rest R : List Nat)
    (i x y : Nat) (h : (ch + 256 - 97) % 256 < 26) (hne : R.getD i 0 ≠ byteIndex ch)
    (hp : c.encode_or_decode_pair 2 (R.getD i 0) (byteIndex ch) e = some (x, y)) :
    encodeOrDecodeLoop c e (ch :: rest) R (some i) =
      encodeOrDecodeLoop c e rest ((R.set i x) ++ [y]) none := by
  simp only [byteIndex] at hne hp
  simp only [encodeOrDecodeLoop]
  rw [if_neg (by omega)]
  simp only [if_neg hne, hp]

theorem loop_split (c : PlayfairCipher) (e : Bool) (ch : Nat) (rest R : List Nat)
    (i x y : Nat) (h : (ch + 256 - 97) % 256 < 26) (heq : R.getD i 0 = byteIndex ch)
    (hp : c.encode_or_decode_pair 2 (R.getD i 0) 22 e = some (x, y)) :
    encodeOrDecodeLoop c e (ch :: rest) R (some i) =
      encodeOrDecodeLoop c e rest ((R.set i x) ++ [y, byteIndex ch])
        (some (R.length + 1)) := by
  simp only [byteIndex] at heq hp ⊢
  simp only [encodeOrDecodeLoop]
  rw [if_neg (by omega)]
  simp only [if_pos heq, hp]

theorem utf8_replace {a b : Nat} (ha : a < 128) (hb : b < 128) :
    ∀ {l : List Nat}, Utf8 l → ∀ u v : List Nat, l = u ++ a :: v → Utf8 (u ++ b :: v) := by
  intro l hl
  induction hl with
  | nil => intro u v h; exact absurd h (by simp)
  | @one x rest hx hrest ih =>
    intro u v h
    cases u with
    | nil =>
      simp only [List.nil_append, List.cons.injEq] at h
      exact h.2 ▸ Utf8.one hb hrest
    | cons y u' =>
      simp only [List.cons_append, List.cons.injEq] at h
      exact h.1 ▸ Utf8.one hx (ih u' v h.2)
  | @two x c rest h1 h2 h3 h4 hrest ih =>
    intro u v h
    cases u with
    | nil => simp only [List.nil_append, List.cons.injEq] at h; omega
    | cons y u' =>
      simp only [List.cons_append, List.cons.injEq] at h
      cases u' with
      | nil => simp only [List.nil_append, List.cons.injEq] at h; omega
      | cons z u'' =>
        simp only [List.cons_append, List.cons.injEq] at h
        obtain ⟨hy, hz, hr⟩ := h
        exact hy ▸ hz ▸ Utf8.two h1 h2 h3 h4 (ih u'' v hr)
  | @threeLow c d rest h1 h2 h3 h4 hrest ih =>
    intro u v h
    match u, h with
    | [], h => simp only [List.nil_append, List.cons.injEq] at h; omega
    | [y], h => simp only [List.cons_append, List.nil_append, List.cons.injEq] at h; omega
    | y :: z :: u'', h =>
      simp only [List.cons_append, List.cons.injEq] at h
      match u'', h with
      | [], h => simp only [List.nil_append, List.cons.injEq] at h; omega
      | w :: u3, h =>
        simp only [List.cons_append, List.cons.injEq] at h
        obtain ⟨hy, hz, hw, hr⟩ := h
        exact hy ▸ hz ▸ hw ▸ Utf8.threeLow h1 h2 h3 h4 (ih u3 v hr)
  | @threeMid x c d rest h1 h2 h3 h4 h5 h6 hrest ih =>
    intro u v h
    match u, h with
    | [], h => simp only [List.nil_append, List.cons.injEq] at h; omega
    | [y], h => simp only [List.cons_append, List.nil_append, List.cons.injEq] at h; omega
    | y :: z :: u'', h =>
      simp only [List.cons_append, List.cons.injEq] at h
      match u'', h with
      | [], h => simp only [List.nil_append, List.cons.injEq] at h; omega
      | w :: u3, h =>
        simp only [List.cons_append, List.cons.injEq] at h
        obtain ⟨hy, hz, hw, hr⟩ := h
        exact hy ▸ hz ▸ hw ▸ Utf8.threeMid h1 h2 h3 h4 h5 h6 (ih u3 v hr)
  | @threeSur c d rest h1 h2 h3 h4 hrest ih =>
    intro u v h
    match u, h with
    | [], h => simp only [List.nil_append, List.cons.injEq] at h; omega
    | [y], h => simp only [List.cons_append, List.nil_append, List.cons.injEq] at h; omega
    | y :: z :: u'', h =>
      simp only [List.cons_append, List.cons.injEq] at h
      match u'', h with
      | [], h => simp only [List.nil_append, List.cons.injEq] at h; omega
      | w :: u3, h =>
        simp only [List.cons_append, List.cons.injEq] at h
        obtain ⟨hy, hz, hw, hr⟩ := h
        exact hy ▸ hz ▸ hw ▸ Utf8.threeSur h1 h2 h3 h4 (ih u3 v hr)
  | @threeHi x c d rest h1 h2 h3 h4 h5 h6 hrest ih =>
    intro u v h
    match u, h with
    | [], h => simp only [List.nil_append, List.cons.injEq] at h; omega
    | [y], h => simp only [List.cons_append, List.nil_append, List.cons.injEq] at h; omega
    | y :: z :: u'', h =>
      simp only [List.cons_append, List.cons.injEq] at h
      match u'', h with
      | [], h => simp only [List.nil_append, List.cons.injEq] at h; omega
      | w :: u3, h =>
        simp only [List.cons_append, List.cons.injEq] at h
        obtain ⟨hy, hz, hw, hr⟩ := h
        exact hy ▸ hz ▸ hw ▸ Utf8.threeHi h1 h2 h3 h4 h5 h6 (ih u3 v hr)
  | @fourLow c d e rest h1 h2 h3 h4 h5 h6 hrest ih =>
    intro u v h
    match u, h with
    | [], h => simp only [List.nil_append, List.cons.injEq] at h; omega
    | [y], h => simp only [List.cons_append, List.nil_append, List.cons.injEq] at h; omega
    | [y, z], h =>
      simp only [List.cons_append, List.nil_append, List.cons.injEq] at h; omega
    | y :: z :: w :: u3, h =>
      simp only [List.cons_append, List.cons.injEq] at h
      match u3, h with
      | [], h => simp only [List.nil_append, List.cons.injEq] at h; omega
      | t :: u4, h =>
        simp only [List.cons_append, List.cons.injEq] at h
        obtain ⟨hy, hz, hw, ht, hr⟩ := h
        exact hy ▸ hz ▸ hw ▸ ht ▸ Utf8.fourLow h1 h2 h3 h4 h5 h6 (ih u4 v hr)
  | @fourMid x c d e rest h1 h2 h3 h4 h5 h6 h7 h8 hrest ih =>
    intro u v h
    match u, h with
    | [], h => simp only [List.nil_append, List.cons.injEq] at h; omega
    | [y], h => simp only [List.cons_append, List.nil_append, List.cons.injEq] at h; omega
    | [y, z], h =>
      simp only [List.cons_append, List.nil_append, List.cons.injEq] at h; omega
    | y :: z :: w :: u3, h =>
      simp only [List.cons_append, List.cons.injEq] at h
      match u3, h with
      | [], h => simp only [List.nil_append, List.cons.injEq] at h; omega
      | t :: u4, h =>
        simp only [List.cons_append, List.cons.injEq] at h
        obtain ⟨hy, hz, hw, ht, hr⟩ := h
        exact hy ▸ hz ▸ hw ▸ ht ▸ Utf8.fourMid h1 h2 h3 h4 h5 h6 h7 h8 (ih u4 v hr)
  | @fourHi c d e rest h1 h2 h3 h4 h5 h6 hrest ih =>
    intro u v h
    match u, h with
    | [], h => simp only [List.nil_append, List.cons.injEq] at h; omega
    | [y], h => simp only [List.cons_append, List.nil_append, List.cons.injEq] at h; omega
    | [y, z], h =>
      simp only [List.cons_append, List.nil_append, List.cons.injEq] at h; omega
    | y :: z :: w :: u3, h =>
      simp only [List.cons_append, List.cons.injEq] at h
      match u3, h with
      | [], h => simp only [List.nil_append, List.cons.injEq] at h; omega
      | t :: u4, h =>
        simp only [List.cons_append, List.cons.injEq] at h
        obtain ⟨hy, hz, hw, ht, hr⟩ := h
        exact hy ▸ hz ▸ hw ▸ ht ▸ Utf8.fourHi h1 h2 h3 h4 h5 h6 (ih u4 v hr)

/-! ### Key square construction invariants -/

theorem encCell_interior : ∀ i, i < 25 → Interior (encCell i) := by decide

theorem encCell_inj : ∀ i, i < 25 → ∀ j, j < 25 → encCell i = encCell j → i = j := by decide

theorem encCell_lt : ∀ i, i < 25 → encCell i < 64 := by decide

theorem encCell_ne_255 : ∀ i, i < 25 → encCell i ≠ 255 := by decide

theorem countP_lt_length (l : List Nat) (p : Nat → Bool) (i : Nat) (hi : i < l.length)
    (h : p (l.getD i 0) = false) : l.countP p < l.length := by
  induction l generalizing i with
  | nil => simp at hi
  | cons a t ih =>
    cases i with
    | zero =>
      simp only [List.getD_cons_zero] at h
      simp [List.countP_cons, h]
      have : List.countP p t ≤ t.length := List.countP_le_length p
      omega
    | succ i' =>
      simp only [List.getD_cons_succ] at h
      simp only [List.countP_cons, List.length_cons]
      have := ih i' (by simpa using hi) h
      by_cases hp : p a = true
      · rw [if_pos hp]; omega
      · rw [if_neg hp]; omega

theorem countP_eq_length_all (l : List Nat) (p : Nat → Bool)
    (h : ∀ i, i < l.length → p (l.getD i 0) = true) : l.countP p = l.length := by
  induction l with
  | nil => simp
  | cons a t ih =>
    have h0 := h 0 (by simp)
    simp only [List.getD_cons_zero] at h0
    have ht : List.countP p t = t.length := ih (fun i hi => by
      have := h (i + 1) (by simp only [List.length_cons]; omega)
      simpa using this)
    simp [List.countP_cons, h0, ht]

set_option maxRecDepth 4000 in
theorem keyLetter_canon_all :
    ∀ L, L < 256 →
      (if L < 106 then (L + 256 - 97) % 256 else (L + 256 - 98) % 256) < 25 →
      (if L = 106 then 105 else L) =
        canonLetter (if L < 106 then (L + 256 - 97) % 256 else (L + 256 - 98) % 256) := by
  decide

theorem keyLetter_canon (letter li : Nat) (hb : letter < 256)
    (hli : li = if letter < 106 then (letter + 256 - 97) % 256 else (letter + 256 - 98) % 256)
    (h25 : li < 25) : (if letter = 106 then 105 else letter) = canonLetter li := by
  subst hli
  exact keyLetter_canon_all letter hb h25

set_option maxRecDepth 4000 in
theorem fillKeyStep_inv (st : List Nat × List Nat × Nat × Nat) (letter : Nat)
    (hb : letter < 256) (h : FillInv st) : FillInv (fillKeyStep st letter) := by
  obtain ⟨P, L, row, col⟩ := st
  obtain ⟨hP, hL, hrow, hcol, hrange, hinj, hlet⟩ := h
  dsimp only at hP hL hrow hcol hrange hinj hlet
  simp only [fillKeyStep]
  by_cases h25 : 25 ≤ (if letter < 106 then (letter + 256 - 97) % 256
      else (letter + 256 - 98) % 256)
  · rw [if_pos h25]
    exact ⟨hP, hL, hrow, hcol, hrange, hinj, hlet⟩
  · rw [if_neg h25]
    set li := (if letter < 106 then (letter + 256 - 97) % 256
      else (letter + 256 - 98) % 256) with hli
    by_cases hassigned : P.getD li 0 ≠ 255
    · rw [if_pos hassigned]
      exact ⟨hP, hL, hrow, hcol, hrange, hinj, hlet⟩
    · rw [if_neg hassigned]
      push_neg at hassigned
      have hli25 : li < 25 := by omega
      have hn25 : assignedCount P < 25 := by
        have := countP_lt_length P (fun v => decide (v ≠ 255)) li (by omega)
          (by rw [hassigned]; rfl)
        unfold assignedCount
        omega
      have henc : row * 8 + col = encCell (assignedCount P) := by
        rw [hrow, hcol, encCell]
      rw [henc]
      have hP' : (P.set li (encCell (assignedCount P))).length = 25 := by simp [hP]
      have hL' :
          (L.set (encCell (assignedCount P))
            (if letter = 106 then 105 else letter)).length = 64 := by
        simp [hL]
      have hcnt : assignedCount (P.set li (encCell (assignedCount P))) =
          assignedCount P + 1 := by
        have := countP_set_ft P li (encCell (assignedCount P)) (fun v => decide (v ≠ 255))
          (by omega) (by rw [hassigned]; rfl)
          (by simp [encCell_ne_255 (assignedCount P) hn25])
        exact this
      have hrange' : ∀ a, a < 25 → (P.set li (encCell (assignedCount P))).getD a 0 ≠ 255 →
          ∃ i, i < assignedCount P + 1 ∧
            (P.set li (encCell (assignedCount P))).getD a 0 = encCell i := by
        intro a ha hne
        rw [getD_set] at hne ⊢
        by_cases hcond : a = li ∧ li < P.length
        · rw [if_pos hcond]
          exact ⟨assignedCount P, by omega, rfl⟩
        · rw [if_neg hcond] at hne ⊢
          obtain ⟨i, hi, heq⟩ := hrange a ha hne
          exact ⟨i, by omega, heq⟩
      have hinj' : ∀ a, a < 25 → ∀ b, b < 25 →
          (P.set li (encCell (assignedCount P))).getD a 0 ≠ 255 →
          (P.set li (encCell (assignedCount P))).getD a 0 =
            (P.set li (encCell (assignedCount P))).getD b 0 → a = b := by
        intro a ha b hb hane heq
        rw [getD_set] at hane
        rw [getD_set, getD_set] at heq
        by_cases hac : a = li ∧ li < P.length
        · by_cases hbc : b = li ∧ li < P.length
          · omega
          · rw [if_pos hac, if_neg hbc] at heq
            have hbne : P.getD b 0 ≠ 255 := by
              rw [← heq]; exact encCell_ne_255 (assignedCount P) hn25
            obtain ⟨i, hi, hbeq⟩ := hrange b hb hbne
            rw [hbeq] at heq
            have := encCell_inj (assignedCount P) hn25 i (by omega) heq
            omega
        · by_cases hbc : b = li ∧ li < P.length
          · rw [if_neg hac, if_pos hbc] at heq
            rw [if_neg hac] at hane
            obtain ⟨i, hi, haeq⟩ := hrange a ha hane
            rw [haeq] at heq
            have := encCell_inj i (by omega) (assignedCount P) hn25 heq
            omega
          · rw [if_neg hac, if_neg hbc] at heq
            rw [if_neg hac] at hane
            exact hinj a ha b hb hane heq
      have hlet' : ∀ a, a < 25 → (P.set li (encCell (assignedCount P))).getD a 0 ≠ 255 →
          (L.set (encCell (assignedCount P)) (if letter = 106 then 105 else letter)).getD
            ((P.set li (encCell (assignedCount P))).getD a 0) 0 = canonLetter a := by
        intro a ha hane
        rw [getD_set] at hane
        rw [getD_set, getD_set]
        by_cases hac : a = li ∧ li < P.length
        · rw [if_pos hac,
            if_pos ⟨rfl, by rw [hL]; exact encCell_lt (assignedCount P) hn25⟩]
          rw [hac.1]
          exact keyLetter_canon letter li hb hli (by omega)
        · rw [if_neg hac] at hane ⊢
          obtain ⟨i, hi, haeq⟩ := hrange a ha hane
          have hne2 : P.getD a 0 ≠ encCell (assignedCount P) := by
            rw [haeq]
            intro hcontra
            have := encCell_inj i (by omega) (assignedCount P) hn25 hcontra
            omega
          rw [if_neg (by intro hcontra; exact hne2 hcontra.1)]
          exact hlet a ha hane
      by_cases hc6 : col + 1 = 6
      · rw [if_pos hc6]
        refine ⟨hP', hL', ?_, ?_, by rw [hcnt]; exact hrange', hinj', hlet'⟩
        · show row + 1 = 1 + assignedCount (P.set li (encCell (assignedCount P))) / 5
          rw [hcnt]; omega
        · show 1 = 1 + assignedCount (P.set li (encCell (assignedCount P))) % 5
          rw [hcnt]; omega
      · rw [if_neg hc6]
        refine ⟨hP', hL', ?_, ?_, by rw [hcnt]; exact hrange', hinj', hlet'⟩
        · show row = 1 + assignedCount (P.set li (encCell (assignedCount P))) / 5
          rw [hcnt]; omega
        · show col + 1 = 1 + assignedCount (P.set li (encCell (assignedCount P))) % 5
          rw [hcnt]; omega

set_option maxRecDepth 4000 in
theorem fillRestStep_inv (st : List Nat × List Nat × Nat × Nat) (j : Nat) (hj : j < 25)
    (h : Fill2Inv j st) : Fill2Inv (j + 1) (fillRestStep st j) := by
  obtain ⟨P, L, row, col⟩ := st
  obtain ⟨⟨hP, hL, hrow, hcol, hrange, hinj, hlet⟩, hbelow⟩ := h
  dsimp only at hP hL hrow hcol hrange hinj hlet hbelow
  simp only [fillRestStep]
  by_cases hassigned : P.getD j 0 ≠ 255
  · rw [if_pos hassigned]
    refine ⟨⟨hP, hL, hrow, hcol, hrange, hinj, hlet⟩, ?_⟩
    intro a ha
    dsimp only
    by_cases haj : a = j
    · subst haj; exact hassigned
    · exact hbelow a (by omega)
  · rw [if_neg hassigned]
    push_neg at hassigned
    have hn25 : assignedCount P < 25 := by
      have := countP_lt_length P (fun v => decide (v ≠ 255)) j (by omega)
        (by rw [hassigned]; rfl)
      unfold assignedCount
      omega
    have henc : row * 8 + col = encCell (assignedCount P) := by
      rw [hrow, hcol, encCell]
    rw [henc]
    have hP' : (P.set j (encCell (assignedCount P))).length = 25 := by simp [hP]
    have hL' :
        (L.set (encCell (assignedCount P)) (if j ≤ 8 then j + 97 else j + 98)).length = 64 := by
      simp [hL]
    have hcnt : assignedCount (P.set j (encCell (assignedCount P))) =
        assignedCount P + 1 := by
      have := countP_set_ft P j (encCell (assignedCount P)) (fun v => decide (v ≠ 255))
        (by omega) (by rw [hassigned]; rfl)
        (by simp [encCell_ne_255 (assignedCount P) hn25])
      exact this
    have hrange' : ∀ a, a < 25 → (P.set j (encCell (assignedCount P))).getD a 0 ≠ 255 →
        ∃ i, i < assignedCount P + 1 ∧
          (P.set j (encCell (assignedCount P))).getD a 0 = encCell i := by
      intro a ha hne
      rw [getD_set] at hne ⊢
      by_cases hcond : a = j ∧ j < P.length
      · rw [if_pos hcond]
        exact ⟨assignedCount P, by omega, rfl⟩
      · rw [if_neg hcond] at hne ⊢
        obtain ⟨i, hi, heq⟩ := hrange a ha hne
        exact ⟨i, by omega, heq⟩
    have hinj' : ∀ a, a < 25 → ∀ b, b < 25 →
        (P.set j (encCell (assignedCount P))).getD a 0 ≠ 255 →
        (P.set j (encCell (assignedCount P))).getD a 0 =
          (P.set j (encCell (assignedCount P))).getD b 0 → a = b := by
      intro a ha b hb hane heq
      rw [getD_set] at hane
      rw [getD_set, getD_set] at heq
      by_cases hac : a = j ∧ j < P.length
      · by_cases hbc : b = j ∧ j < P.length
        · omega
        · rw [if_pos hac, if_neg hbc] at heq
          have hbne : P.getD b 0 ≠ 255 := by
            rw [← heq]; exact encCell_ne_255 (assignedCount P) hn25
          obtain ⟨i, hi, hbeq⟩ := hrange b hb hbne
          rw [hbeq] at heq
          have := encCell_inj (assignedCount P) hn25 i (by omega) heq
          omega
      · by_cases hbc : b = j ∧ j < P.length
        · rw [if_neg hac, if_pos hbc] at heq
          rw [if_neg hac] at hane
          obtain ⟨i, hi, haeq⟩ := hrange a ha hane
          rw [haeq] at heq
          have := encCell_inj i (by omega) (assignedCount P) hn25 heq
          omega
        · rw [if_neg hac, if_neg hbc] at heq
          rw [if_neg hac] at hane
          exact hinj a ha b hb hane heq
    have hlet' : ∀ a, a < 25 → (P.set j (encCell (assignedCount P))).getD a 0 ≠ 255 →
        (L.set (encCell (assignedCount P)) (if j ≤ 8 then j + 97 else j + 98)).getD
          ((P.set j (encCell (assignedCount P))).getD a 0) 0 = canonLetter a := by
      intro a ha hane
      rw [getD_set] at hane
      rw [getD_set, getD_set]
      by_cases hac : a = j ∧ j < P.length
      · rw [if_pos hac,
          if_pos ⟨rfl, by rw [hL]; exact encCell_lt (assignedCount P) hn25⟩]
        rw [hac.1]
        rfl
      · rw [if_neg hac] at hane ⊢
        obtain ⟨i, hi, haeq⟩ := hrange a ha hane
        have hne2 : P.getD a 0 ≠ encCell (assignedCount P) := by
          rw [haeq]
          intro hcontra
          have := encCell_inj i (by omega) (assignedCount P) hn25 hcontra
          omega
        rw [if_neg (by intro hcontra; exact hne2 hcontra.1)]
        exact hlet a ha hane
    have hbelow' : ∀ a, a < j + 1 → (P.set j (encCell (assignedCount P))).getD a 0 ≠ 255 := by
      intro a ha
      rw [getD_set]
      by_cases hcond : a = j ∧ j < P.length
      · rw [if_pos hcond]
        exact encCell_ne_255 (assignedCount P) hn25
      · rw [if_neg hcond]
        have haj : a ≠ j := by
          intro hcontra
          exact hcond ⟨hcontra, by omega⟩
        exact hbelow a (by omega)
    by_cases hc6 : col + 1 = 6
    · rw [if_pos hc6]
      refine ⟨⟨hP', hL', ?_, ?_, by rw [hcnt]; exact hrange', hinj', hlet'⟩, hbelow'⟩
      · show row + 1 = 1 + assignedCount (P.set j (encCell (assignedCount P))) / 5
        rw [hcnt]; omega
      · show 1 = 1 + assignedCount (P.set j (encCell (assignedCount P))) % 5
        rw [hcnt]; omega
    · rw [if_neg hc6]
      refine ⟨⟨hP', hL', ?_, ?_, by rw [hcnt]; exact hrange', hinj', hlet'⟩, hbelow'⟩
      · show row = 1 + assignedCount (P.set j (encCell (assignedCount P))) / 5
        rw [hcnt]; omega
      · show col + 1 = 1 + assignedCount (P.set j (encCell (assignedCount P))) % 5
        rw [hcnt]; omega

set_option maxRecDepth 2000 in
theorem fillInv_init : FillInv (List.replicate 25 255, List.replicate 64 0, 1, 1) := by
  refine ⟨by simp, by simp, ?_, ?_, ?_, ?_, ?_⟩
  · show 1 = 1 + assignedCount (List.replicate 25 255) / 5
    have : assignedCount (List.replicate 25 255) = 0 := by decide
    rw [this]
  · show 1 = 1 + assignedCount (List.replicate 25 255) % 5
    have : assignedCount (List.replicate 25 255) = 0 := by decide
    rw [this]
  · intro a ha hne
    exact absurd (by decide : ∀ i, i < 25 → (List.replicate 25 (255 : Nat)).getD i 0 = 255)
      (by push_neg; exact ⟨a, ha, hne⟩)
  · intro a ha b hb hne _
    exact absurd (by decide : ∀ i, i < 25 → (List.replicate 25 (255 : Nat)).getD i 0 = 255)
      (by push_neg; exact ⟨a, ha, hne⟩)
  · intro a ha hne
    exact absurd (by decide : ∀ i, i < 25 → (List.replicate 25 (255 : Nat)).getD i 0 = 255)
      (by push_neg; exact ⟨a, ha, hne⟩)

theorem foldl_fillKey_inv (key : List Nat) (hkey : ∀ b ∈ key, b < 256) :
    ∀ st, FillInv st → FillInv (key.foldl fillKeyStep st) := by
  induction key with
  | nil => intro st h; exact h
  | cons b rest ih =>
    intro st h
    rw [List.foldl_cons]
    exact ih (fun x hx => hkey x (by simp [hx])) _ (fillKeyStep_inv st b (hkey b (by simp)) h)

theorem foldl_fillRest_inv : ∀ (k j : Nat) (st : List Nat × List Nat × Nat × Nat),
    j + k ≤ 25 → Fill2Inv j st →
    Fill2Inv (j + k) ((List.range' j k).foldl fillRestStep st) := by
  intro k
  induction k with
  | zero => intro j st _ h; simpa using h
  | succ k' ih =>
    intro j st hk h
    rw [List.range'_succ, List.foldl_cons]
    have h1 := fillRestStep_inv st j (by omega) h
    have h2 := ih (j + 1) _ (by omega) h1
    have heq : j + (k' + 1) = (j + 1) + k' := by omega
    rw [heq]
    exact h2

theorem fill2_after (st : List Nat × List Nat × Nat × Nat) (h : FillInv st) :
    Fill2Inv 25 ((List.range 25).foldl fillRestStep st) := by
  have h2 := foldl_fillRest_inv 25 0 st (by omega) ⟨h, fun a ha => absurd ha (by omega)⟩
  rw [List.range_eq_range']
  simpa using h2

/-! ### Border pass -/

theorem getD_set_nonint (ls : List Nat) (v q p : Nat) (hp : Interior p)
    (hq : q % 8 = 0 ∨ q % 8 = 6 ∨ q / 8 = 0 ∨ q / 8 = 6) :
    (ls.set q v).getD p 0 = ls.getD p 0 := by
  obtain ⟨h1, h2, h3, h4⟩ := hp
  rw [getD_set, if_neg]
  intro hcon
  obtain ⟨hpq, _⟩ := hcon
  subst hpq
  omega

theorem setRowBorders_interior (ls : List Nat) (p : Nat) (hp : Interior p) :
    (setRowBorders ls).getD p 0 = ls.getD p 0 := by
  unfold setRowBorders
  generalize List.range' 1 5 = Lr
  induction Lr generalizing ls with
  | nil => rfl
  | cons r rest ih =>
    rw [List.foldl_cons, ih]
    dsimp only
    rw [getD_set_nonint _ _ _ p hp (by omega), getD_set_nonint _ _ _ p hp (by omega)]

theorem setColBorders_aux_interior (Lc : List Nat) (hLc : ∀ r ∈ Lc, r ≤ 6) :
    ∀ (ls : List Nat) (p : Nat), Interior p →
      (Lc.foldl
        (fun (ls : List Nat) (col : Nat) =>
          let ls1 := ls.set col (ls.getD (col + 5 * 8) 0)
          ls1.set (col + 6 * 8) (ls1.getD (col + 8) 0)) ls).getD p 0 = ls.getD p 0 := by
  induction Lc with
  | nil => intro ls p _; rfl
  | cons cc rest ih =>
    intro ls p hp
    have hcc : cc ≤ 6 := hLc cc (by simp)
    rw [List.foldl_cons, ih (fun r hr => hLc r (by simp [hr])) _ p hp]
    dsimp only
    rw [getD_set_nonint _ _ _ p hp (by omega), getD_set_nonint _ _ _ p hp (by omega)]

theorem setColBorders_interior (ls : List Nat) (p : Nat) (hp : Interior p) :
    (setColBorders ls).getD p 0 = ls.getD p 0 := by
  unfold setColBorders
  exact setColBorders_aux_interior (List.range 7)
    (fun r hr => by have := List.mem_range.mp hr; omega) ls p hp

theorem borders_interior (ls : List Nat) (p : Nat) (hp : Interior p) :
    (setColBorders (setRowBorders ls)).getD p 0 = ls.getD p 0 := by
  rw [setColBorders_interior _ _ hp, setRowBorders_interior _ _ hp]

theorem setRowBorders_length (ls : List Nat) : (setRowBorders ls).length = ls.length := by
  unfold setRowBorders
  generalize List.range' 1 5 = Lr
  induction Lr generalizing ls with
  | nil => rfl
  | cons r rest ih => rw [List.foldl_cons, ih]; simp

theorem setColBorders_length (ls : List Nat) : (setColBorders ls).length = ls.length := by
  unfold setColBorders
  generalize List.range 7 = Lc
  induction Lc generalizing ls with
  | nil => rfl
  | cons cc rest ih => rw [List.foldl_cons, ih]; simp

set_option maxHeartbeats 1600000 in
theorem borders_rowL (ls : List Nat) (hlen : ls.length = 64) (r : Nat)
    (h1 : 1 ≤ r) (h5 : r ≤ 5) :
    (setColBorders (setRowBorders ls)).getD (r * 8) 0 =
      (setColBorders (setRowBorders ls)).getD (r * 8 + 5) 0 := by
  have hr1 : List.range' 1 5 = [1, 2, 3, 4, 5] := rfl
  have hr2 : List.range 7 = [0, 1, 2, 3, 4, 5, 6] := rfl
  unfold setColBorders setRowBorders
  rw [hr1, hr2]
  simp only [List.foldl_cons, List.foldl_nil]
  interval_cases r <;> norm_num [getD_set, List.length_set, hlen]

set_option maxHeartbeats 1600000 in
theorem borders_rowR (ls : List Nat) (hlen : ls.length = 64) (r : Nat)
    (h1 : 1 ≤ r) (h5 : r ≤ 5) :
    (setColBorders (setRowBorders ls)).getD (r * 8 + 6) 0 =
      (setColBorders (setRowBorders ls)).getD (r * 8 + 1) 0 := by
  have hr1 : List.range' 1 5 = [1, 2, 3, 4, 5] := rfl
  have hr2 : List.range 7 = [0, 1, 2, 3, 4, 5, 6] := rfl
  unfold setColBorders setRowBorders
  rw [hr1, hr2]
  simp only [List.foldl_cons, List.foldl_nil]
  interval_cases r <;> norm_num [getD_set, List.length_set, hlen]

set_option maxHeartbeats 1600000 in
theorem borders_top (ls : List Nat) (hlen : ls.length = 64) (cc : Nat) (h6 : cc ≤ 6) :
    (setColBorders (setRowBorders ls)).getD cc 0 =
      (setColBorders (setRowBorders ls)).getD (cc + 40) 0 := by
  have hr1 : List.range' 1 5 = [1, 2, 3, 4, 5] := rfl
  have hr2 : List.range 7 = [0, 1, 2, 3, 4, 5, 6] := rfl
  unfold setColBorders setRowBorders
  rw [hr1, hr2]
  simp only [List.foldl_cons, List.foldl_nil]
  interval_cases cc <;> norm_num [getD_set, List.length_set, hlen]

set_option maxHeartbeats 1600000 in
theorem borders_bot (ls : List Nat) (hlen : ls.length = 64) (cc : Nat) (h6 : cc ≤ 6) :
    (setColBorders (setRowBorders ls)).getD (cc + 48) 0 =
      (setColBorders (setRowBorders ls)).getD (cc + 8) 0 := by
  have hr1 : List.range' 1 5 = [1, 2, 3, 4, 5] := rfl
  have hr2 : List.range 7 = [0, 1, 2, 3, 4, 5, 6] := rfl
  unfold setColBorders setRowBorders
  rw [hr1, hr2]
  simp only [List.foldl_cons, List.foldl_nil]
  interval_cases cc <;> norm_num [getD_set, List.length_set, hlen]

theorem interior_lt_64 {p : Nat} (hp : Interior p) : p < 64 := by
  obtain ⟨h1, h2, h3, h4⟩ := hp
  omega

theorem wellBuilt_of_parts (c : PlayfairCipher) (st : List Nat × List Nat × Nat × Nat)
    (hpos : c.positions = st.1)
    (hlets : c.letters = setColBorders (setRowBorders st.2.1))
    (h : Fill2Inv 25 st) : WellBuilt c := by
  obtain ⟨P, L, row, col⟩ := st
  obtain ⟨⟨hP, hL, hrow, hcol, hrange, hinj, hlet⟩, hall⟩ := h
  dsimp only at hP hL hrow hcol hrange hinj hlet hall hpos hlets
  have hcnt : assignedCount P = 25 := by
    have heq := countP_eq_length_all P (fun v => decide (v ≠ 255))
      (fun i hi => decide_eq_true (hall i (by omega)))
    unfold assignedCount
    rw [heq, hP]
  have hint : ∀ a, a < 25 → Interior (P.getD a 0) := by
    intro a ha
    obtain ⟨i, hi, heq⟩ := hrange a ha (hall a ha)
    rw [heq]
    exact encCell_interior i (by omega)
  constructor
  · rw [hpos]; exact hP
  · rw [hlets, setColBorders_length, setRowBorders_length]; exact hL
  · intro a ha
    rw [hpos]
    exact hint a ha
  · intro a ha b hb
    rw [hpos]
    exact fun heq => hinj a ha b hb (hall a ha) heq
  · intro a ha
    rw [hpos, hlets, borders_interior _ _ (hint a ha)]
    exact hlet a ha (hall a ha)
  · intro r hr1 hr5
    rw [hlets]
    exact borders_rowL _ hL r hr1 hr5
  · intro r hr1 hr5
    rw [hlets]
    exact borders_rowR _ hL r hr1 hr5
  · intro cc hcc
    rw [hlets]
    exact borders_top _ hL cc hcc
  · intro cc hcc
    rw [hlets]
    exact borders_bot _ hL cc hcc

theorem new_eq (key : List Nat) : PlayfairCipher.new key =
    ⟨((List.range 25).foldl fillRestStep
        (key.foldl fillKeyStep (List.replicate 25 255, List.replicate 64 0, 1, 1))).1,
      setColBorders (setRowBorders
        ((List.range 25).foldl fillRestStep
          (key.foldl fillKeyStep (List.replicate 25 255, List.replicate 64 0, 1, 1))).2.1)⟩ := by
  simp only [PlayfairCipher.new]

theorem wellBuilt_new (key : List Nat) (hkey : ∀ b ∈ key, b < 256) :
    WellBuilt (PlayfairCipher.new key) := by
  have h1 := foldl_fillKey_inv key hkey _ fillInv_init
  have h2 := fill2_after _ h1
  exact wellBuilt_of_parts (PlayfairCipher.new key)
    ((List.range 25).foldl fillRestStep
      (key.foldl fillKeyStep (List.replicate 25 255, List.replicate 64 0, 1, 1)))
    (by rw [new_eq]) (by rw [new_eq]) h2

theorem positions_surj (c : PlayfairCipher) (h : WellBuilt c) (p : Nat) (hp : Interior p) :
    ∃ a, a < 25 ∧ c.positions.getD a 0 = p := by
  have hsub : (Finset.range 25).image (fun a => c.positions.getD a 0) ⊆
      (Finset.range 64).filter (fun q => Interior q) := by
    intro q hq
    simp only [Finset.mem_image, Finset.mem_range] at hq
    obtain ⟨a, ha, rfl⟩ := hq
    have hin := h.interior a ha
    simp only [Finset.mem_filter, Finset.mem_range]
    exact ⟨interior_lt_64 hin, hin⟩
  have hcardS : ((Finset.range 25).image (fun a => c.positions.getD a 0)).card = 25 := by
    rw [Finset.card_image_of_injOn]
    · simp
    · intro a ha b hb heq
      simp only [Finset.coe_range, Set.mem_Iio] at ha hb
      exact h.inj a ha b hb heq
  have hcardI : ((Finset.range 64).filter (fun q => Interior q)).card = 25 := by decide
  have hSeq : (Finset.range 25).image (fun a => c.positions.getD a 0) =
      (Finset.range 64).filter (fun q => Interior q) :=
    Finset.eq_of_subset_of_card_le hsub (by omega)
  have hpin : p ∈ (Finset.range 25).image (fun a => c.positions.getD a 0) := by
    rw [hSeq]
    simp only [Finset.mem_filter, Finset.mem_range]
    exact ⟨interior_lt_64 hp, hp⟩
  simp only [Finset.mem_image, Finset.mem_range] at hpin
  obtain ⟨a, ha, heq⟩ := hpin
  exact ⟨a, ha, heq⟩

/-! ### Pair substitution -/

theorem land7_eq : ∀ p, p < 64 → p.land 7 = p % 8 := by decide

theorem land56_eq : ∀ p, p < 64 → p.land 56 = 8 * (p / 8) := by decide

theorem lor_split : ∀ r, r < 8 → ∀ q, q < 8 → (8 * r).lor q = 8 * r + q := by decide

theorem byteIndex_canon : ∀ a, a < 25 → byteIndex (canonLetter a) = a := by decide

theorem canon_range : ∀ a, a < 25 →
    97 ≤ canonLetter a ∧ canonLetter a ≤ 122 ∧ canonLetter a ≠ 106 := by decide

theorem canon_inj : ∀ a, a < 25 → ∀ b, b < 25 →
    canonLetter a = canonLetter b → a = b := by decide

theorem canon_byteIndex : ∀ b, b < 123 → 97 ≤ b → b ≠ 106 →
    canonLetter (byteIndex b) = b := by decide

theorem byteIndex_lt : ∀ b, b < 123 → 97 ≤ b → byteIndex b < 25 := by decide

theorem down_spec (c : PlayfairCipher) (h : WellBuilt c) (p : Nat) (hp : Interior p) :
    ∃ a2, a2 < 25 ∧
      c.positions.getD a2 0 = (if p / 8 = 5 then p % 8 + 8 else p + 8) ∧
      c.letters.getD (p + 8) 0 = canonLetter a2 ∧
      Interior (if p / 8 = 5 then p % 8 + 8 else p + 8) := by
  obtain ⟨h1, h2, h3, h4⟩ := hp
  by_cases h5 : p / 8 = 5
  · have hd : Interior (p % 8 + 8) := by refine ⟨?_, ?_, ?_, ?_⟩ <;> omega
    obtain ⟨a2, ha2, hpa⟩ := positions_surj c h (p % 8 + 8) hd
    refine ⟨a2, ha2, by rw [if_pos h5]; exact hpa, ?_, by rw [if_pos h5]; exact hd⟩
    have heq : p + 8 = p % 8 + 48 := by omega
    rw [heq, h.borderBot (p % 8) (by omega), ← hpa, h.letterAt a2 ha2]
  · have hd : Interior (p + 8) := by refine ⟨?_, ?_, ?_, ?_⟩ <;> omega
    obtain ⟨a2, ha2, hpa⟩ := positions_surj c h (p + 8) hd
    exact ⟨a2, ha2, by rw [if_neg h5]; exact hpa,
      by rw [← hpa, h.letterAt a2 ha2], by rw [if_neg h5]; exact hd⟩

theorem up_spec (c : PlayfairCipher) (h : WellBuilt c) (p : Nat) (hp : Interior p) :
    ∃ a2, a2 < 25 ∧
      c.positions.getD a2 0 = (if p / 8 = 1 then p % 8 + 40 else p - 8) ∧
      c.letters.getD (p - 8) 0 = canonLetter a2 ∧
      Interior (if p / 8 = 1 then p % 8 + 40 else p - 8) := by
  obtain ⟨h1, h2, h3, h4⟩ := hp
  by_cases h5 : p / 8 = 1
  · have hd : Interior (p % 8 + 40) := by refine ⟨?_, ?_, ?_, ?_⟩ <;> omega
    obtain ⟨a2, ha2, hpa⟩ := positions_surj c h (p % 8 + 40) hd
    refine ⟨a2, ha2, by rw [if_pos h5]; exact hpa, ?_, by rw [if_pos h5]; exact hd⟩
    have heq : p - 8 = p % 8 := by omega
    rw [heq, h.borderTop (p % 8) (by omega), ← hpa, h.letterAt a2 ha2]
  · have hd : Interior (p - 8) := by refine ⟨?_, ?_, ?_, ?_⟩ <;> omega
    obtain ⟨a2, ha2, hpa⟩ := positions_surj c h (p - 8) hd
    exact ⟨a2, ha2, by rw [if_neg h5]; exact hpa,
      by rw [← hpa, h.letterAt a2 ha2], by rw [if_neg h5]; exact hd⟩

theorem right_spec (c : PlayfairCipher) (h : WellBuilt c) (p : Nat) (hp : Interior p) :
    ∃ a2, a2 < 25 ∧
      c.positions.getD a2 0 = (if p % 8 = 5 then p - 4 else p + 1) ∧
      c.letters.getD (p + 1) 0 = canonLetter a2 ∧
      Interior (if p % 8 = 5 then p - 4 else p + 1) := by
  obtain ⟨h1, h2, h3, h4⟩ := hp
  by_cases h5 : p % 8 = 5
  · have hd : Interior (p - 4) := by refine ⟨?_, ?_, ?_, ?_⟩ <;> omega
    obtain ⟨a2, ha2, hpa⟩ := positions_surj c h (p - 4) hd
    refine ⟨a2, ha2, by rw [if_pos h5]; exact hpa, ?_, by rw [if_pos h5]; exact hd⟩
    have heq : p + 1 = (p / 8) * 8 + 6 := by omega
    have heq2 : (p / 8) * 8 + 1 = p - 4 := by omega
    rw [heq, h.borderRowR (p / 8) (by omega) (by omega), heq2, ← hpa, h.letterAt a2 ha2]
  · have hd : Interior (p + 1) := by refine ⟨?_, ?_, ?_, ?_⟩ <;> omega
    obtain ⟨a2, ha2, hpa⟩ := positions_surj c h (p + 1) hd
    exact ⟨a2, ha2, by rw [if_neg h5]; exact hpa,
      by rw [← hpa, h.letterAt a2 ha2], by rw [if_neg h5]; exact hd⟩

theorem left_spec (c : PlayfairCipher) (h : WellBuilt c) (p : Nat) (hp : Interior p) :
    ∃ a2, a2 < 25 ∧
      c.positions.getD a2 0 = (if p % 8 = 1 then p + 4 else p - 1) ∧
      c.letters.getD (p - 1) 0 = canonLetter a2 ∧
      Interior (if p % 8 = 1 then p + 4 else p - 1) := by
  obtain ⟨h1, h2, h3, h4⟩ := hp
  by_cases h5 : p % 8 = 1
  · have hd : Interior (p + 4) := by refine ⟨?_, ?_, ?_, ?_⟩ <;> omega
    obtain ⟨a2, ha2, hpa⟩ := positions_surj c h (p + 4) hd
    refine ⟨a2, ha2, by rw [if_pos h5]; exact hpa, ?_, by rw [if_pos h5]; exact hd⟩
    have heq : p - 1 = (p / 8) * 8 := by omega
    have heq2 : (p / 8) * 8 + 5 = p + 4 := by omega
    rw [heq, h.borderRowL (p / 8) (by omega) (by omega), heq2, ← hpa, h.letterAt a2 ha2]
  · have hd : Interior (p - 1) := by refine ⟨?_, ?_, ?_, ?_⟩ <;> omega
    obtain ⟨a2, ha2, hpa⟩ := positions_surj c h (p - 1) hd
    exact ⟨a2, ha2, by rw [if_neg h5]; exact hpa,
      by rw [← hpa, h.letterAt a2 ha2], by rw [if_neg h5]; exact hd⟩

theorem pair_spec_distinct (c : PlayfairCipher) (h : WellBuilt c) (a b : Nat)
    (ha : a < 25) (hb : b < 25) (hne : a ≠ b) (e : Bool) (f : Nat) :
    ∃ ax ay, ax < 25 ∧ ay < 25 ∧ ax ≠ ay ∧
      c.encode_or_decode_pair (f + 1) a b e = some (canonLetter ax, canonLetter ay) ∧
      (e = true → ∀ g, c.encode_or_decode_pair (g + 1) ax ay false =
        some (canonLetter a, canonLetter b)) := by
  have hIA := h.interior a ha
  have hIB := h.interior b hb
  have hPP : c.positions.getD a 0 ≠ c.positions.getD b 0 :=
    fun heq => hne (h.inj a ha b hb heq)
  have hA64 := interior_lt_64 hIA
  have hB64 := interior_lt_64 hIB
  obtain ⟨hA1, hA2, hA3, hA4⟩ := hIA
  obtain ⟨hB1, hB2, hB3, hB4⟩ := hIB
  by_cases hcol : c.positions.getD a 0 % 8 = c.positions.getD b 0 % 8
  · -- same column
    cases e with
    | true =>
      obtain ⟨ax, hax, hpax, hlax, hIax⟩ := down_spec c h _ ⟨hA1, hA2, hA3, hA4⟩
      obtain ⟨ay, hay, hpay, hlay, hIay⟩ := down_spec c h _ ⟨hB1, hB2, hB3, hB4⟩
      have hne2 : ax ≠ ay := by
        intro heq
        apply hPP
        have hdd : c.positions.getD ax 0 = c.positions.getD ay 0 := by rw [heq]
        rw [hpax, hpay] at hdd
        split_ifs at hdd <;> omega
      refine ⟨ax, ay, hax, hay, hne2, ?_, ?_⟩
      · simp only [PlayfairCipher.encode_or_decode_pair]
        rw [if_neg hPP, land7_eq _ hA64, land7_eq _ hB64, if_pos hcol, if_pos trivial,
          hlax, hlay]
      · intro _ g
        have hPPd : c.positions.getD ax 0 ≠ c.positions.getD ay 0 :=
          fun heq => hne2 (h.inj ax hax ay hay heq)
        have hIax2 : Interior (c.positions.getD ax 0) := by rw [hpax]; exact hIax
        have hIay2 : Interior (c.positions.getD ay 0) := by rw [hpay]; exact hIay
        obtain ⟨hX1, hX2, hX3, hX4⟩ := hIax2
        obtain ⟨hY1, hY2, hY3, hY4⟩ := hIay2
        have hX64 : c.positions.getD ax 0 < 64 := by omega
        have hY64 : c.positions.getD ay 0 < 64 := by omega
        have hcd : c.positions.getD ax 0 % 8 = c.positions.getD ay 0 % 8 := by
          rw [hpax, hpay]
          split_ifs <;> omega
        obtain ⟨a3, ha3, hpa3, hla3, _⟩ := up_spec c h _ ⟨hX1, hX2, hX3, hX4⟩
        obtain ⟨b3, hb3, hpb3, hlb3, _⟩ := up_spec c h _ ⟨hY1, hY2, hY3, hY4⟩
        have haa : a3 = a := by
          apply h.inj a3 ha3 a ha
          rw [hpa3, hpax]
          split_ifs <;> omega
        have hbb : b3 = b := by
          apply h.inj b3 hb3 b hb
          rw [hpb3, hpay]
          split_ifs <;> omega
        simp only [PlayfairCipher.encode_or_decode_pair]
        rw [if_neg hPPd, land7_eq _ hX64, land7_eq _ hY64, if_pos hcd,
          if_neg (by decide : ¬((false : Bool) = true)), hla3, hlb3, haa, hbb]
    | false =>
      obtain ⟨ax, hax, hpax, hlax, hIax⟩ := up_spec c h _ ⟨hA1, hA2, hA3, hA4⟩
      obtain ⟨ay, hay, hpay, hlay, hIay⟩ := up_spec c h _ ⟨hB1, hB2, hB3, hB4⟩
      have hne2 : ax ≠ ay := by
        intro heq
        apply hPP
        have hdd : c.positions.getD ax 0 = c.positions.getD ay 0 := by rw [heq]
        rw [hpax, hpay] at hdd
        split_ifs at hdd <;> omega
      refine ⟨ax, ay, hax, hay, hne2, ?_, ?_⟩
      · simp only [PlayfairCipher.encode_or_decode_pair]
        rw [if_neg hPP, land7_eq _ hA64, land7_eq _ hB64, if_pos hcol,
          if_neg (by decide : ¬((false : Bool) = true)), hlax, hlay]
      · intro hcontra
        exact absurd hcontra (by decide)
  · by_cases hrow : 8 * (c.positions.getD a 0 / 8) = 8 * (c.positions.getD b 0 / 8)
    · -- same row
      cases e with
      | true =>
        obtain ⟨ax, hax, hpax, hlax, hIax⟩ := right_spec c h _ ⟨hA1, hA2, hA3, hA4⟩
        obtain ⟨ay, hay, hpay, hlay, hIay⟩ := right_spec c h _ ⟨hB1, hB2, hB3, hB4⟩
        have hne2 : ax ≠ ay := by
          intro heq
          apply hPP
          have hdd : c.positions.getD ax 0 = c.positions.getD ay 0 := by rw [heq]
          rw [hpax, hpay] at hdd
          split_ifs at hdd <;> omega
        refine ⟨ax, ay, hax, hay, hne2, ?_, ?_⟩
        · simp only [PlayfairCipher.encode_or_decode_pair]
          rw [if_neg hPP, land7_eq _ hA64, land7_eq _ hB64, if_neg hcol,
            land56_eq _ hA64, land56_eq _ hB64, if_pos hrow, if_pos trivial, hlax, hlay]
        · intro _ g
          have hPPd : c.positions.getD ax 0 ≠ c.positions.getD ay 0 :=
            fun heq => hne2 (h.inj ax hax ay hay heq)
          have hIax2 : Interior (c.positions.getD ax 0) := by rw [hpax]; exact hIax
          have hIay2 : Interior (c.positions.getD ay 0) := by rw [hpay]; exact hIay
          obtain ⟨hX1, hX2, hX3, hX4⟩ := hIax2
          obtain ⟨hY1, hY2, hY3, hY4⟩ := hIay2
          have hX64 : c.positions.getD ax 0 < 64 := by omega
          have hY64 : c.positions.getD ay 0 < 64 := by omega
          have hcd : ¬(c.positions.getD ax 0 % 8 = c.positions.getD ay 0 % 8) := by
            rw [hpax, hpay]
            split_ifs <;> omega
          have hrd : 8 * (c.positions.getD ax 0 / 8) = 8 * (c.positions.getD ay 0 / 8) := by
            rw [hpax, hpay]
            split_ifs <;> omega
          obtain ⟨a3, ha3, hpa3, hla3, _⟩ := left_spec c h _ ⟨hX1, hX2, hX3, hX4⟩
          obtain ⟨b3, hb3, hpb3, hlb3, _⟩ := left_spec c h _ ⟨hY1, hY2, hY3, hY4⟩
          have haa : a3 = a := by
            apply h.inj a3 ha3 a ha
            rw [hpa3, hpax]
            split_ifs <;> omega
          have hbb : b3 = b := by
            apply h.inj b3 hb3 b hb
            rw [hpb3, hpay]
            split_ifs <;> omega
          simp only [PlayfairCipher.encode_or_decode_pair]
          rw [if_neg hPPd, land7_eq _ hX64, land7_eq _ hY64, if_neg hcd,
            land56_eq _ hX64, land56_eq _ hY64, if_pos hrd,
            if_neg (by decide : ¬((false : Bool) = true)), hla3, hlb3, haa, hbb]
      | false =>
        obtain ⟨ax, hax, hpax, hlax, hIax⟩ := left_spec c h _ ⟨hA1, hA2, hA3, hA4⟩
        obtain ⟨ay, hay, hpay, hlay, hIay⟩ := left_spec c h _ ⟨hB1, hB2, hB3, hB4⟩
        have hne2 : ax ≠ ay := by
          intro heq
          apply hPP
          have hdd : c.positions.getD ax 0 = c.positions.getD ay 0 := by rw [heq]
          rw [hpax, hpay] at hdd
          split_ifs at hdd <;> omega
        refine ⟨ax, ay, hax, hay, hne2, ?_, ?_⟩
        · simp only [PlayfairCipher.encode_or_decode_pair]
          rw [if_neg hPP, land7_eq _ hA64, land7_eq _ hB64, if_neg hcol,
            land56_eq _ hA64, land56_eq _ hB64, if_pos hrow,
            if_neg (by decide : ¬((false : Bool) = true)), hlax, hlay]
        · intro hcontra
          exact absurd hcontra (by decide)
    · -- rectangle
      have hIc : Interior (8 * (c.positions.getD a 0 / 8) + c.positions.getD b 0 % 8) := by
        refine ⟨?_, ?_, ?_, ?_⟩ <;> omega
      have hId : Interior (8 * (c.positions.getD b 0 / 8) + c.positions.getD a 0 % 8) := by
        refine ⟨?_, ?_, ?_, ?_⟩ <;> omega
      obtain ⟨ax, hax, hpax⟩ := positions_surj c h _ hIc
      obtain ⟨ay, hay, hpay⟩ := positions_surj c h _ hId
      have hne2 : ax ≠ ay := by
        intro heq
        rw [heq, hpay] at hpax
        omega
      have hlax : c.letters.getD
          (8 * (c.positions.getD a 0 / 8) + c.positions.getD b 0 % 8) 0 = canonLetter ax := by
        rw [← hpax, h.letterAt ax hax]
      have hlay : c.letters.getD
          (8 * (c.positions.getD b 0 / 8) + c.positions.getD a 0 % 8) 0 = canonLetter ay := by
        rw [← hpay, h.letterAt ay hay]
      refine ⟨ax, ay, hax, hay, hne2, ?_, ?_⟩
      · simp only [PlayfairCipher.encode_or_decode_pair]
        rw [if_neg hPP, land7_eq _ hA64, land7_eq _ hB64, if_neg hcol,
          land56_eq _ hA64, land56_eq _ hB64, if_neg hrow,
          lor_split (c.positions.getD a 0 / 8) (by omega) (c.positions.getD b 0 % 8) (by omega),
          lor_split (c.positions.getD b 0 / 8) (by omega) (c.positions.getD a 0 % 8) (by omega),
          hlax, hlay]
      · intro _ g
        have hPPd : c.positions.getD ax 0 ≠ c.positions.getD ay 0 :=
          fun heq => hne2 (h.inj ax hax ay hay heq)
        have hX64 : c.positions.getD ax 0 < 64 := by rw [hpax]; omega
        have hY64 : c.positions.getD ay 0 < 64 := by rw [hpay]; omega
        have hcd : ¬(c.positions.getD ax 0 % 8 = c.positions.getD ay 0 % 8) := by
          rw [hpax, hpay]
          omega
        have hrd : ¬(8 * (c.positions.getD ax 0 / 8) = 8 * (c.positions.getD ay 0 / 8)) := by
          rw [hpax, hpay]
          omega
        have hcell1 : 8 * (c.positions.getD ax 0 / 8) + c.positions.getD ay 0 % 8 =
            c.positions.getD a 0 := by
          rw [hpax, hpay]
          omega
        have hcell2 : 8 * (c.positions.getD ay 0 / 8) + c.positions.getD ax 0 % 8 =
            c.positions.getD b 0 := by
          rw [hpax, hpay]
          omega
        simp only [PlayfairCipher.encode_or_decode_pair]
        have hXr : c.positions.getD ax 0 / 8 < 8 := by omega
        have hYr : c.positions.getD ay 0 / 8 < 8 := by omega
        rw [if_neg hPPd, land7_eq _ hX64, land7_eq _ hY64, if_neg hcd,
          land56_eq _ hX64, land56_eq _ hY64, if_neg hrd,
          lor_split (c.positions.getD ax 0 / 8) hXr (c.positions.getD ay 0 % 8) (by omega),
          lor_split (c.positions.getD ay 0 / 8) hYr (c.positions.getD ax 0 % 8) (by omega),
          hcell1, hcell2]
        rw [h.letterAt a ha, h.letterAt b hb]

theorem pair_distinct_fuel (c : PlayfairCipher) (a b : Nat) (e : Bool)
    (hPP : c.positions.getD a 0 ≠ c.positions.getD b 0) (f : Nat) :
    c.encode_or_decode_pair (f + 1) a b e = c.encode_or_decode_pair 1 a b e := by
  simp only [PlayfairCipher.encode_or_decode_pair]
  rw [if_neg hPP, if_neg hPP]

theorem pair_id22 (c : PlayfairCipher) (e : Bool) (g : Nat) :
    c.encode_or_decode_pair (g + 1) 22 22 e = some (22, 22) := by
  simp only [PlayfairCipher.encode_or_decode_pair]
  rw [if_pos trivial, if_pos trivial]

theorem pair_id_step (c : PlayfairCipher) (a : Nat) (h22 : ¬(a = 22)) (e : Bool) (g : Nat) :
    c.encode_or_decode_pair (g + 2) a a e = c.encode_or_decode_pair (g + 1) a 22 e := by
  simp only [PlayfairCipher.encode_or_decode_pair]
  rw [if_pos trivial, if_neg h22]

theorem pair_total (c : PlayfairCipher) (h : WellBuilt c) (a b : Nat)
    (ha : a < 25) (hb : b < 25) (e : Bool) :
    ∃ x y, c.encode_or_decode_pair 2 a b e = some (x, y) ∧
      ((a = 22 ∧ b = 22 ∧ x = 22 ∧ y = 22) ∨
        (∃ ax ay, ax < 25 ∧ ay < 25 ∧ ax ≠ ay ∧
          x = canonLetter ax ∧ y = canonLetter ay)) := by
  by_cases hab : a = b
  · subst hab
    by_cases h22 : a = 22
    · subst h22
      exact ⟨22, 22, pair_id22 c e 1, Or.inl ⟨rfl, rfl, rfl, rfl⟩⟩
    · obtain ⟨ax, ay, hax, hay, hne2, heq, _⟩ :=
        pair_spec_distinct c h a 22 ha (by omega) h22 e 0
      refine ⟨canonLetter ax, canonLetter ay, ?_, Or.inr ⟨ax, ay, hax, hay, hne2, rfl, rfl⟩⟩
      rw [show (2 : Nat) = 0 + 2 from rfl, pair_id_step c a h22 e 0]
      exact heq
  · obtain ⟨ax, ay, hax, hay, hne2, heq, _⟩ := pair_spec_distinct c h a b ha hb hab e 1
    exact ⟨canonLetter ax, canonLetter ay, heq,
      Or.inr ⟨ax, ay, hax, hay, hne2, rfl, rfl⟩⟩

theorem pair_fuel (c : PlayfairCipher) (h : WellBuilt c) (a b : Nat)
    (ha : a < 25) (hb : b < 25) (e : Bool) (f : Nat) :
    c.encode_or_decode_pair (f + 2) a b e = c.encode_or_decode_pair 2 a b e := by
  by_cases hab : a = b
  · subst hab
    by_cases h22 : a = 22
    · subst h22
      exact (pair_id22 c e (f + 1)).trans (pair_id22 c e 1).symm
    · have hPP22 : c.positions.getD a 0 ≠ c.positions.getD 22 0 :=
        fun heq => h22 (h.inj a ha 22 (by omega) heq)
      calc c.encode_or_decode_pair (f + 2) a a e
          = c.encode_or_decode_pair (f + 1) a 22 e := pair_id_step c a h22 e f
        _ = c.encode_or_decode_pair 1 a 22 e := pair_distinct_fuel c a 22 e hPP22 f
        _ = c.encode_or_decode_pair (0 + 1) a 22 e := rfl
        _ = c.encode_or_decode_pair 2 a a e := (pair_id_step c a h22 e 0).symm
  · have hPP : c.positions.getD a 0 ≠ c.positions.getD b 0 :=
      fun heq => hab (h.inj a ha b hb heq)
    exact (pair_distinct_fuel c a b e hPP (f + 1)).trans
      (pair_distinct_fuel c a b e hPP 1).symm

/-! ### Byte classification bridges -/

set_option maxRecDepth 4000 in
theorem alpha_iff : ∀ b, b < 256 → ((b + 256 - 97) % 256 < 26 ↔ 97 ≤ b ∧ b ≤ 122) := by
  decide

set_option maxRecDepth 4000 in
theorem byteIndex_small : ∀ b, b < 256 → (b + 256 - 97) % 256 < 26 → byteIndex b < 25 := by
  decide

theorem alpha_canon : ∀ a, a < 25 → (canonLetter a + 256 - 97) % 256 < 26 := by decide

theorem nonalpha_22 : ¬(97 ≤ 22 ∧ 22 ≤ 122) := by decide

/-! ### Insertion-of-22 relation -/

theorem ins22_refl (xs : List Nat) : Ins22 xs xs := by
  induction xs with
  | nil => exact Ins22.nil
  | cons x t ih => exact Ins22.cons x ih

theorem ins22_append_left (d : List Nat) {xs ys : List Nat} (h : Ins22 xs ys) :
    Ins22 (d ++ xs) (d ++ ys) := by
  induction d with
  | nil => exact h
  | cons x t ih => exact Ins22.cons x ih

theorem ins22_trans : ∀ {ys zs : List Nat}, Ins22 ys zs →
    ∀ {xs : List Nat}, Ins22 xs ys → Ins22 xs zs := by
  intro ys zs h2
  induction h2 with
  | nil => intro xs h1; exact h1
  | cons x _ ih =>
    intro xs h1
    cases h1 with
    | cons _ h1' => exact Ins22.cons x (ih h1')
    | ins h1' => exact Ins22.ins (ih h1')
  | ins _ ih =>
    intro xs h1
    exact Ins22.ins (ih h1)

theorem ins22_snoc22 (xs : List Nat) : Ins22 xs (xs ++ [22]) := by
  induction xs with
  | nil => exact Ins22.ins Ins22.nil
  | cons x t ih => exact Ins22.cons x ih

theorem ins22_sublist {xs ys : List Nat} (h : Ins22 xs ys) : xs.Sublist ys := by
  induction h with
  | nil => exact List.Sublist.refl []
  | cons x _ ih => exact ih.cons₂ x
  | ins _ ih => exact ih.cons 22

theorem ins22_filter_ne22 {xs ys : List Nat} (h : Ins22 xs ys) :
    xs.filter (fun b => decide (b ≠ 22)) = ys.filter (fun b => decide (b ≠ 22)) := by
  induction h with
  | nil => rfl
  | cons x _ ih =>
    simp only [List.filter_cons]
    rw [ih]
  | ins _ ih =>
    simp only [List.filter_cons]
    simpa using ih

/-! ### Output bookkeeping helpers -/

theorem nonalpha_lt25 (v : Nat) (hv : v < 25) : isLowerAlpha v = false := by
  simp only [isLowerAlpha, decide_eq_false_iff_not]
  omega

theorem filter_set_decomp (R : List Nat) (i x : Nat) (hi : i < R.length) :
    (R.set i x).filter (fun b => !isLowerAlpha b) =
      (R.take i).filter (fun b => !isLowerAlpha b) ++
        (if isLowerAlpha x then [] else [x]) ++
        (R.drop (i + 1)).filter (fun b => !isLowerAlpha b) := by
  rw [List.set_eq_take_cons_drop _ hi, List.filter_append, List.filter_cons]
  by_cases hx : isLowerAlpha x
  · simp [hx]
  · simp only [hx]
    simp [Bool.not_eq_true] at hx
    simp [hx]

theorem mem_set_imp {R : List Nat} {i x b : Nat} (h : b ∈ R.set i x) : b ∈ R ∨ b = x := by
  have := List.mem_or_eq_of_mem_set h
  tauto

theorem alpha_canon_true : ∀ a, a < 25 → isLowerAlpha (canonLetter a) = true := by decide

theorem canon_ne_106 : ∀ a, a < 25 → canonLetter a ≠ 106 := by decide

theorem doneOf_none (R : List Nat) :
    doneOf R none = R.filter (fun b => !isLowerAlpha b) := rfl

theorem doneOf_some (R : List Nat) (i : Nat) :
    doneOf R (some i) = (R.take i).filter (fun b => !isLowerAlpha b) ++
      (R.drop (i + 1)).filter (fun b => !isLowerAlpha b) := rfl

theorem countP_single_alpha {v : Nat} (hv : isLowerAlpha v = true) :
    List.countP isLowerAlpha [v] = 1 := by
  simp [List.countP_cons, hv]

theorem countP_single_nonalpha {v : Nat} (hv : isLowerAlpha v = false) :
    List.countP isLowerAlpha [v] = 0 := by
  simp [List.countP_cons, hv]

theorem filter_single_nonalpha {v : Nat} (hv : isLowerAlpha v = false) :
    List.filter (fun b => !isLowerAlpha b) [v] = [v] := by
  simp [List.filter_cons, hv]

theorem filter_single_alpha {v : Nat} (hv : isLowerAlpha v = true) :
    List.filter (fun b => !isLowerAlpha b) [v] = [] := by
  simp [List.filter_cons, hv]

theorem loop_master (c : PlayfairCipher) (h : WellBuilt c) (e : Bool) :
    ∀ (text R : List Nat) (p : Option Nat), (∀ b ∈ text, b < 256) → PendInv R p →
      ∃ OUT, encodeOrDecodeLoop c e text R p = some OUT ∧
        (106 ∉ R → 106 ∉ OUT) ∧
        (countAlpha R % 2 = 0 → countAlpha OUT % 2 = 0) ∧
        Ins22 (doneOf R p ++ text.filter (fun b => !isLowerAlpha b))
          (OUT.filter (fun b => !isLowerAlpha b)) := by
  intro text
  induction text with
  | nil =>
    intro R p hbytes hp
    cases p with
    | none =>
      refine ⟨R, loop_nil_none c e R, fun h106 => h106, fun hev => hev, ?_⟩
      rw [doneOf_none, List.filter_nil, List.append_nil]
      exact ins22_refl _
    | some i =>
      obtain ⟨hi, hpi⟩ := hp i rfl
      obtain ⟨x, y, hpair, hcase⟩ := pair_total c h (R.getD i 0) 22 hpi (by omega) e
      refine ⟨(R.set i x) ++ [y], loop_nil_some c e R i x y hpair, ?_, ?_, ?_⟩
      · intro h106 hmem
        rcases List.mem_append.mp hmem with hmem | hmem
        · rcases mem_set_imp hmem with hmem | hmem
          · exact h106 hmem
          · rcases hcase with ⟨_, _, hx, _⟩ | ⟨ax, _, hax, _, _, hx, _⟩
            · omega
            · exact canon_ne_106 ax hax (hx ▸ hmem.symm)
        · simp only [List.mem_singleton] at hmem
          rcases hcase with ⟨_, _, _, hy⟩ | ⟨_, ay, _, hay, _, _, hy⟩
          · omega
          · exact canon_ne_106 ay hay (hy ▸ hmem.symm)
      · intro hev
        rcases hcase with ⟨_, _, hx, hy⟩ | ⟨ax, ay, hax, hay, _, hx, hy⟩
        · subst hx hy
          have hcnt : countAlpha ((R.set i 22) ++ [22]) = countAlpha R := by
            rw [countAlpha, countAlpha, List.countP_append,
              countP_set_ff R i 22 _ hi (nonalpha_lt25 _ hpi) (by decide),
              countP_single_nonalpha (by decide)]
            omega
          rw [hcnt]
          exact hev
        · subst hx hy
          have hcnt : countAlpha ((R.set i (canonLetter ax)) ++ [canonLetter ay]) =
              countAlpha R + 2 := by
            rw [countAlpha, countAlpha, List.countP_append,
              countP_set_ft R i _ _ hi (nonalpha_lt25 _ hpi) (alpha_canon_true ax hax),
              countP_single_alpha (alpha_canon_true ay hay)]
          rw [hcnt]
          omega
      · rw [List.filter_nil, List.append_nil, List.filter_append,
          filter_set_decomp R i x hi, doneOf_some]
        rcases hcase with ⟨_, _, hx, hy⟩ | ⟨ax, ay, hax, hay, _, hx, hy⟩
        · subst hx hy
          rw [if_neg (by decide), filter_single_nonalpha (by decide)]
          simp only [List.append_assoc, List.singleton_append]
          exact ins22_append_left _ (Ins22.ins (ins22_snoc22 _))
        · subst hx hy
          rw [if_pos (alpha_canon_true ax hax), filter_single_alpha (alpha_canon_true ay hay),
            List.append_nil, List.append_nil]
          exact ins22_refl _
  | cons ch rest ih =>
    intro R p hbytes hp
    have hch256 : ch < 256 := hbytes ch (by simp)
    have hrest : ∀ b ∈ rest, b < 256 := fun b hb => hbytes b (by simp [hb])
    by_cases hc : 26 ≤ (ch + 256 - 97) % 256
    · -- non-alphabetic byte: copied through
      have hchna : isLowerAlpha ch = false := by
        have := alpha_iff ch hch256
        simp only [isLowerAlpha, decide_eq_false_iff_not]
        omega
      have hch106 : ch ≠ 106 := by
        intro hcontra
        subst hcontra
        simp at hc
      rw [loop_copy c e ch rest R p hc]
      have hp' : PendInv (R ++ [ch]) p := by
        intro i hip
        obtain ⟨hi, hpi⟩ := hp i hip
        refine ⟨by rw [List.length_append]; omega, ?_⟩
        rw [getD_app, if_pos hi]
        exact hpi
      obtain ⟨OUT, hrun, h106, hev, hins⟩ := ih (R ++ [ch]) p hrest hp'
      refine ⟨OUT, hrun, ?_, ?_, ?_⟩
      · intro hn
        apply h106
        intro hmem
        rcases List.mem_append.mp hmem with hmem | hmem
        · exact hn hmem
        · simp only [List.mem_singleton] at hmem
          exact hch106 hmem.symm
      · intro hev2
        apply hev
        rw [countAlpha, List.countP_append, countP_single_nonalpha hchna]
        rw [countAlpha] at hev2
        omega
      · have hdone : doneOf (R ++ [ch]) p = doneOf R p ++ [ch] := by
          cases p with
          | none =>
            rw [doneOf_none, doneOf_none, List.filter_append, filter_single_nonalpha hchna]
          | some i =>
            obtain ⟨hi, _⟩ := hp i rfl
            rw [doneOf_some, doneOf_some, List.take_append_of_le_length (by omega),
              List.drop_append_of_le_length (by omega), List.filter_append,
              filter_single_nonalpha hchna, List.append_assoc]
        rw [hdone] at hins
        have hfil : List.filter (fun b => !isLowerAlpha b) (ch :: rest) =
            ch :: List.filter (fun b => !isLowerAlpha b) rest := by
          simp [List.filter_cons, hchna]
        rw [hfil]
        rw [List.append_assoc] at hins
        simpa using hins
    · -- alphabetic byte
      push_neg at hc
      have hcha : isLowerAlpha ch = true := by
        have := (alpha_iff ch hch256).mp hc
        simp [isLowerAlpha, this]
      have hbi : byteIndex ch < 25 := byteIndex_small ch hch256 hc
      have hfil : List.filter (fun b => !isLowerAlpha b) (ch :: rest) =
          List.filter (fun b => !isLowerAlpha b) rest := by
        simp [List.filter_cons, hcha]
      cases p with
      | none =>
        rw [loop_letter_none c e ch rest R hc]
        have hp' : PendInv (R ++ [byteIndex ch]) (some R.length) := by
          intro i hip
          injection hip with hip
          subst hip
          refine ⟨by simp, ?_⟩
          rw [getD_app, if_neg (show ¬(R.length < R.length) by omega)]
          simpa using hbi
        obtain ⟨OUT, hrun, h106, hev, hins⟩ := ih (R ++ [byteIndex ch]) (some R.length)
          hrest hp'
        refine ⟨OUT, hrun, ?_, ?_, ?_⟩
        · intro hn
          apply h106
          intro hmem
          rcases List.mem_append.mp hmem with hmem | hmem
          · exact hn hmem
          · simp only [List.mem_singleton] at hmem
            omega
        · intro hev2
          apply hev
          rw [countAlpha, List.countP_append, countP_single_nonalpha (nonalpha_lt25 _ hbi)]
          rw [countAlpha] at hev2
          omega
        · have hdone : doneOf (R ++ [byteIndex ch]) (some R.length) = doneOf R none := by
            rw [doneOf_some, doneOf_none, List.take_left,
              show R.length + 1 = (R ++ [byteIndex ch]).length by simp,
              List.drop_length, List.filter_nil, List.append_nil]
          rw [hdone] at hins
          rw [hfil]
          exact hins
      | some i =>
        obtain ⟨hi, hpi⟩ := hp i rfl
        by_cases heq : R.getD i 0 = byteIndex ch
        · -- doubled letter: split with the filler
          obtain ⟨x, y, hpair, hcase⟩ := pair_total c h (R.getD i 0) 22 hpi (by omega) e
          rw [loop_split c e ch rest R i x y hc heq hpair]
          have hp' : PendInv ((R.set i x) ++ [y, byteIndex ch]) (some (R.length + 1)) := by
            intro k hkp
            injection hkp with hkp
            subst hkp
            refine ⟨by simp, ?_⟩
            rw [getD_app, if_neg (by simp)]
            simp only [List.length_set]
            rw [show R.length + 1 - R.length = 1 by omega]
            simpa using hbi
          obtain ⟨OUT, hrun, h106, hev, hins⟩ := ih _ _ hrest hp'
          refine ⟨OUT, hrun, ?_, ?_, ?_⟩
          · intro hn
            apply h106
            intro hmem
            rcases List.mem_append.mp hmem with hmem | hmem
            · rcases mem_set_imp hmem with hmem | hmem
              · exact hn hmem
              · rcases hcase with ⟨_, _, hx, _⟩ | ⟨ax, _, hax, _, _, hx, _⟩
                · omega
                · exact canon_ne_106 ax hax (hx ▸ hmem.symm)
            · rcases List.mem_pair.mp hmem with hmem | hmem
              · rcases hcase with ⟨_, _, _, hy⟩ | ⟨_, ay, _, hay, _, _, hy⟩
                · omega
                · exact canon_ne_106 ay hay (hy ▸ hmem.symm)
              · omega
          · intro hev2
            apply hev
            have hpairlist : ∀ u v : Nat, ([u, v] : List Nat) = [u] ++ [v] := fun u v => rfl
            rcases hcase with ⟨_, _, hx, hy⟩ | ⟨ax, ay, hax, hay, _, hx, hy⟩
            · subst hx hy
              have hcnt : countAlpha ((R.set i 22) ++ [22, byteIndex ch]) =
                  countAlpha R := by
                rw [countAlpha, countAlpha, List.countP_append,
                  countP_set_ff R i 22 _ hi (nonalpha_lt25 _ hpi) (by decide),
                  hpairlist, List.countP_append,
                  countP_single_nonalpha (by decide),
                  countP_single_nonalpha (nonalpha_lt25 _ hbi)]
                omega
              rw [hcnt]
              exact hev2
            · subst hx hy
              have hcnt : countAlpha ((R.set i (canonLetter ax)) ++
                  [canonLetter ay, byteIndex ch]) = countAlpha R + 2 := by
                rw [countAlpha, countAlpha, List.countP_append,
                  countP_set_ft R i _ _ hi (nonalpha_lt25 _ hpi) (alpha_canon_true ax hax),
                  hpairlist, List.countP_append,
                  countP_single_alpha (alpha_canon_true ay hay),
                  countP_single_nonalpha (nonalpha_lt25 _ hbi)]
              rw [hcnt]
              omega
          · have hdone : doneOf ((R.set i x) ++ [y, byteIndex ch]) (some (R.length + 1)) =
                List.filter (fun b => !isLowerAlpha b) (R.set i x) ++
                  List.filter (fun b => !isLowerAlpha b) [y] := by
              rw [doneOf_some]
              have hlen : (R.set i x).length = R.length := by simp
              have ht : ((R.set i x) ++ [y, byteIndex ch]).take (R.length + 1) =
                  (R.set i x) ++ [y] := by
                rw [show R.length + 1 = (R.set i x).length + 1 by rw [hlen],
                  List.take_append]
                rfl
              have hd : ((R.set i x) ++ [y, byteIndex ch]).drop (R.length + 2) = [] := by
                rw [show R.length + 2 = (R.set i x).length + 2 by rw [hlen],
                  List.drop_append]
                rfl
              rw [ht, hd, List.filter_nil, List.append_nil, List.filter_append]
            rw [hdone] at hins
            rw [hfil]
            rcases hcase with ⟨hg22, _, hx, hy⟩ | ⟨ax, ay, hax, hay, _, hx, hy⟩
            · subst hx hy
              rw [filter_set_decomp R i 22 hi, if_neg (by decide),
                filter_single_nonalpha (by decide)] at hins
              simp only [List.append_assoc, List.singleton_append] at hins
              rw [doneOf_some]
              simp only [List.append_assoc]
              exact ins22_trans hins
                (ins22_append_left _ (Ins22.ins (ins22_append_left _
                  (Ins22.ins (ins22_refl _)))))
            · subst hx hy
              rw [filter_set_decomp R i _ hi, if_pos (alpha_canon_true ax hax),
                filter_single_alpha (alpha_canon_true ay hay),
                List.append_nil, List.append_nil] at hins
              rw [doneOf_some]
              exact hins
        · -- completes the pending digraph
          obtain ⟨x, y, hpair, hcase⟩ :=
            pair_total c h (R.getD i 0) (byteIndex ch) hpi hbi e
          have hcanon : ∃ ax ay, ax < 25 ∧ ay < 25 ∧
              x = canonLetter ax ∧ y = canonLetter ay := by
            rcases hcase with ⟨h1, h2, _, _⟩ | ⟨ax, ay, hax, hay, _, hx, hy⟩
            · exact absurd (h1.trans h2.symm) heq
            · exact ⟨ax, ay, hax, hay, hx, hy⟩
          obtain ⟨ax, ay, hax, hay, hx, hy⟩ := hcanon
          subst hx hy
          rw [loop_pair c e ch rest R i _ _ hc heq hpair]
          have hp' : PendInv ((R.set i (canonLetter ax)) ++ [canonLetter ay]) none :=
            fun k hkp => absurd hkp (by simp)
          obtain ⟨OUT, hrun, h106, hev, hins⟩ := ih _ _ hrest hp'
          refine ⟨OUT, hrun, ?_, ?_, ?_⟩
          · intro hn
            apply h106
            intro hmem
            rcases List.mem_append.mp hmem with hmem | hmem
            · rcases mem_set_imp hmem with hmem | hmem
              · exact hn hmem
              · exact canon_ne_106 ax hax hmem.symm
            · simp only [List.mem_singleton] at hmem
              exact canon_ne_106 ay hay hmem.symm
          · intro hev2
            apply hev
            have hcnt : countAlpha ((R.set i (canonLetter ax)) ++ [canonLetter ay]) =
                countAlpha R + 2 := by
              rw [countAlpha, countAlpha, List.countP_append,
                countP_set_ft R i _ _ hi (nonalpha_lt25 _ hpi) (alpha_canon_true ax hax),
                countP_single_alpha (alpha_canon_true ay hay)]
            rw [hcnt]
            omega
          · have hdone : doneOf ((R.set i (canonLetter ax)) ++ [canonLetter ay]) none =
                doneOf R (some i) := by
              rw [doneOf_none, doneOf_some, List.filter_append,
                filter_set_decomp R i _ hi, if_pos (alpha_canon_true ax hax),
                filter_single_alpha (alpha_canon_true ay hay),
                List.append_nil, List.append_nil]
            rw [hdone] at hins
            rw [hfil]
            exact hins

/-! ### UTF-8 preservation through the loop -/

theorem set_decomp (R : List Nat) (i x : Nat) (hi : i < R.length) :
    R = R.take i ++ R.getD i 0 :: R.drop (i + 1) ∧
    R.set i x = R.take i ++ x :: R.drop (i + 1) := by
  induction R generalizing i with
  | nil => simp at hi
  | cons a t ih =>
    cases i with
    | zero => exact ⟨rfl, rfl⟩
    | succ j =>
      obtain ⟨h1, h2⟩ := ih j (by simp only [List.length_cons] at hi; omega)
      constructor
      · simp only [List.take_succ_cons, List.getD_cons_succ, List.drop_succ_cons,
          List.cons_append, List.cons.injEq]
        exact ⟨trivial, h1⟩
      · simp only [List.set_cons_succ, List.take_succ_cons, List.drop_succ_cons,
          List.cons_append, List.cons.injEq]
        exact ⟨trivial, h2⟩

theorem utf8_set_append {R : List Nat} (hR : Utf8 R) (i x : Nat) (hi : i < R.length)
    (hRi : R.getD i 0 < 128) (hx : x < 128) {tail : List Nat} (htail : Utf8 tail) :
    Utf8 ((R.set i x) ++ tail) := by
  obtain ⟨h1, h2⟩ := set_decomp R i x hi
  rw [h2]
  exact utf8_append (utf8_replace hRi hx hR (R.take i) (R.drop (i + 1)) h1) htail

theorem pendInv_append (R : List Nat) (p : Option Nat) (hp : PendInv R p) (t : List Nat) :
    PendInv (R ++ t) p := by
  intro i hi
  obtain ⟨h1, h2⟩ := hp i hi
  refine ⟨by rw [List.length_append]; omega, ?_⟩
  rw [getD_app, if_pos h1]
  exact h2

theorem pair_bytes_lt (c : PlayfairCipher) (h : WellBuilt c) (a b : Nat)
    (ha : a < 25) (hb : b < 25) (e : Bool) (x y : Nat)
    (hp : c.encode_or_decode_pair 2 a b e = some (x, y)) : x < 128 ∧ y < 128 := by
  obtain ⟨x2, y2, hp2, hcase⟩ := pair_total c h a b ha hb e
  rw [hp] at hp2
  injection hp2 with h1
  injection h1 with hx1 hy1
  subst hx1
  subst hy1
  rcases hcase with ⟨_, _, hx, hy⟩ | ⟨ax, ay, hax, hay, _, hx, hy⟩
  · omega
  · have h1 := canon_range ax hax
    have h2 := canon_range ay hay
    omega

theorem loop_utf8 (c : PlayfairCipher) (h : WellBuilt c) (e : Bool)
    {text : List Nat} (htext : Utf8 text) :
    ∀ (R : List Nat) (p : Option Nat), Utf8 R → PendInv R p →
      ∀ OUT, encodeOrDecodeLoop c e text R p = some OUT → Utf8 OUT := by
  induction htext with
  | nil =>
    intro R p hR hp OUT hloop
    cases p with
    | none =>
      rw [loop_nil_none] at hloop
      injection hloop with h1
      exact h1 ▸ hR
    | some i =>
      obtain ⟨hilen, hival⟩ := hp i rfl
      obtain ⟨x, y, hpair, _⟩ := pair_total c h (R.getD i 0) 22 hival (by omega) e
      obtain ⟨hx, hy⟩ := pair_bytes_lt c h _ 22 hival (by omega) e x y hpair
      rw [loop_nil_some c e R i x y hpair] at hloop
      injection hloop with h1
      exact h1 ▸ utf8_set_append hR i x hilen (by omega) hx (Utf8.one hy Utf8.nil)
  | @one b rest hb hrest ih =>
    intro R p hR hp OUT hloop
    by_cases halpha : 26 ≤ (b + 256 - 97) % 256
    · rw [loop_copy c e b rest R p halpha] at hloop
      exact ih _ p (utf8_append hR (Utf8.one hb Utf8.nil)) (pendInv_append R p hp _) OUT hloop
    · push_neg at halpha
      cases p with
      | none =>
        rw [loop_letter_none c e b rest R halpha] at hloop
        have hbi : byteIndex b < 25 := byteIndex_small b (by omega) halpha
        refine ih _ _ (utf8_append hR (Utf8.one (by omega) Utf8.nil)) ?_ OUT hloop
        intro i hi
        injection hi with hi
        subst hi
        refine ⟨by simp, ?_⟩
        rw [getD_app, if_neg (show ¬(R.length < R.length) by omega)]
        simpa using hbi
      | some i =>
        obtain ⟨hilen, hival⟩ := hp i rfl
        have hbi : byteIndex b < 25 := byteIndex_small b (by omega) halpha
        by_cases heq : R.getD i 0 = byteIndex b
        · obtain ⟨x, y, hpair, _⟩ := pair_total c h (R.getD i 0) 22 hival (by omega) e
          obtain ⟨hx, hy⟩ := pair_bytes_lt c h _ 22 hival (by omega) e x y hpair
          rw [loop_split c e b rest R i x y halpha heq hpair] at hloop
          refine ih _ _ ?_ ?_ OUT hloop
          · exact utf8_set_append hR i x hilen (by omega) hx
              (Utf8.one hy (Utf8.one (by omega) Utf8.nil))
          · intro j hj
            injection hj with hj
            subst hj
            refine ⟨by simp, ?_⟩
            rw [getD_app, if_neg (by rw [List.length_set]; omega)]
            simp only [List.length_set]
            rw [show R.length + 1 - R.length = 1 by omega]
            simpa using hbi
        · obtain ⟨x, y, hpair, _⟩ := pair_total c h (R.getD i 0) (byteIndex b) hival hbi e
          obtain ⟨hx, hy⟩ := pair_bytes_lt c h _ (byteIndex b) hival hbi e x y hpair
          rw [loop_pair c e b rest R i x y halpha heq hpair] at hloop
          refine ih _ _
            (utf8_set_append hR i x hilen (by omega) hx (Utf8.one hy Utf8.nil))
            (fun j hj => Option.noConfusion hj) OUT hloop
  | @two b bc rest h1 h2 h3 h4 hrest ih =>
    intro R p hR hp OUT hloop
    rw [loop_copy c e b (bc :: rest) R p (by omega),
      loop_copy c e bc rest (R ++ [b]) p (by omega)] at hloop
    simp only [List.append_assoc] at hloop
    exact ih _ p (utf8_append hR (Utf8.two h1 h2 h3 h4 Utf8.nil))
      (pendInv_append R p hp _) OUT hloop
  | @threeLow bc bd rest h1 h2 h3 h4 hrest ih =>
    intro R p hR hp OUT hloop
    rw [loop_copy c e 224 (bc :: bd :: rest) R p (by omega),
      loop_copy c e bc (bd :: rest) (R ++ [224]) p (by omega),
      loop_copy c e bd rest ((R ++ [224]) ++ [bc]) p (by omega)] at hloop
    simp only [List.append_assoc] at hloop
    exact ih _ p (utf8_append hR (Utf8.threeLow h1 h2 h3 h4 Utf8.nil))
      (pendInv_append R p hp _) OUT hloop
  | @threeMid b bc bd rest h1 h2 h3 h4 h5 h6 hrest ih =>
    intro R p hR hp OUT hloop
    rw [loop_copy c e b (bc :: bd :: rest) R p (by omega),
      loop_copy c e bc (bd :: rest) (R ++ [b]) p (by omega),
      loop_copy c e bd rest ((R ++ [b]) ++ [bc]) p (by omega)] at hloop
    simp only [List.append_assoc] at hloop
    exact ih _ p (utf8_append hR (Utf8.threeMid h1 h2 h3 h4 h5 h6 Utf8.nil))
      (pendInv_append R p hp _) OUT hloop
  | @threeSur bc bd rest h1 h2 h3 h4 hrest ih =>
    intro R p hR hp OUT hloop
    rw [loop_copy c e 237 (bc :: bd :: rest) R p (by omega),
      loop_copy c e bc (bd :: rest) (R ++ [237]) p (by omega),
      loop_copy c e bd rest ((R ++ [237]) ++ [bc]) p (by omega)] at hloop
    simp only [List.append_assoc] at hloop
    exact ih _ p (utf8_append hR (Utf8.threeSur h1 h2 h3 h4 Utf8.nil))
      (pendInv_append R p hp _) OUT hloop
  | @threeHi b bc bd rest h1 h2 h3 h4 h5 h6 hrest ih =>
    intro R p hR hp OUT hloop
    rw [loop_copy c e b (bc :: bd :: rest) R p (by omega),
      loop_copy c e bc (bd :: rest) (R ++ [b]) p (by omega),
      loop_copy c e bd rest ((R ++ [b]) ++ [bc]) p (by omega)] at hloop
    simp only [List.append_assoc] at hloop
    exact ih _ p (utf8_append hR (Utf8.threeHi h1 h2 h3 h4 h5 h6 Utf8.nil))
      (pendInv_append R p hp _) OUT hloop
  | @fourLow bc bd be rest h1 h2 h3 h4 h5 h6 hrest ih =>
    intro R p hR hp OUT hloop
    rw [loop_copy c e 240 (bc :: bd :: be :: rest) R p (by omega),
      loop_copy c e bc (bd :: be :: rest) (R ++ [240]) p (by omega),
      loop_copy c e bd (be :: rest) ((R ++ [240]) ++ [bc]) p (by omega),
      loop_copy c e be rest (((R ++ [240]) ++ [bc]) ++ [bd]) p (by omega)] at hloop
    simp only [List.append_assoc] at hloop
    exact ih _ p (utf8_append hR (Utf8.fourLow h1 h2 h3 h4 h5 h6 Utf8.nil))
      (pendInv_append R p hp _) OUT hloop
  | @fourMid b bc bd be rest h1 h2 h3 h4 h5 h6 h7 h8 hrest ih =>
    intro R p hR hp OUT hloop
    rw [loop_copy c e b (bc :: bd :: be :: rest) R p (by omega),
      loop_copy c e bc (bd :: be :: rest) (R ++ [b]) p (by omega),
      loop_copy c e bd (be :: rest) ((R ++ [b]) ++ [bc]) p (by omega),
      loop_copy c e be rest (((R ++ [b]) ++ [bc]) ++ [bd]) p (by omega)] at hloop
    simp only [List.append_assoc] at hloop
    exact ih _ p (utf8_append hR (Utf8.fourMid h1 h2 h3 h4 h5 h6 h7 h8 Utf8.nil))
      (pendInv_append R p hp _) OUT hloop
  | @fourHi bc bd be rest h1 h2 h3 h4 h5 h6 hrest ih =>
    intro R p hR hp OUT hloop
    rw [loop_copy c e 244 (bc :: bd :: be :: rest) R p (by omega),
      loop_copy c e bc (bd :: be :: rest) (R ++ [244]) p (by omega),
      loop_copy c e bd (be :: rest) ((R ++ [244]) ++ [bc]) p (by omega),
      loop_copy c e be rest (((R ++ [244]) ++ [bc]) ++ [bd]) p (by omega)] at hloop
    simp only [List.append_assoc] at hloop
    exact ih _ p (utf8_append hR (Utf8.fourHi h1 h2 h3 h4 h5 h6 Utf8.nil))
      (pendInv_append R p hp _) OUT hloop

/-! ### Alphabetic-count bookkeeping of the loop -/

theorem getD_snoc_self (R : List Nat) (v : Nat) : (R ++ [v]).getD R.length 0 = v := by
  rw [getD_app, if_neg (show ¬(R.length < R.length) by omega)]
  simp

theorem set_snoc_self (R : List Nat) (v x : Nat) : (R ++ [v]).set R.length x = R ++ [x] := by
  induction R with
  | nil => rfl
  | cons a t ih =>
    simp only [List.cons_append, List.length_cons, List.set_cons_succ, ih]

theorem loop_count (c : PlayfairCipher) (h : WellBuilt c) (e : Bool) :
    ∀ (text R : List Nat) (p : Option Nat), (∀ b ∈ text, b < 256) → PendInv R p →
      (pendStream R p ++ letterStream text).Chain' (fun a b => a ≠ b) →
      ((pendStream R p ++ letterStream text).length % 2 = 1 →
        (pendStream R p ++ letterStream text).getLast? ≠ some 22) →
      ∀ OUT, encodeOrDecodeLoop c e text R p = some OUT →
        countAlpha OUT = countAlpha R +
          roundUpEven (pendStream R p ++ letterStream text).length := by
  intro text
  induction text with
  | nil =>
    intro R p hbytes hp hch hlast OUT hloop
    cases p with
    | none =>
      rw [loop_nil_none] at hloop
      injection hloop with h1
      subst h1
      simp [pendStream, letterStream, roundUpEven]
    | some i =>
      obtain ⟨hi, hpi⟩ := hp i rfl
      have hne22 : R.getD i 0 ≠ 22 := by
        intro h22
        refine hlast (by simp [pendStream, letterStream]) ?_
        simp [pendStream, letterStream]
        rw [← List.getD_eq_getElem?_getD]
        exact h22
      obtain ⟨x, y, hpair, hcase⟩ := pair_total c h (R.getD i 0) 22 hpi (by omega) e
      rw [loop_nil_some c e R i x y hpair] at hloop
      injection hloop with h1
      subst h1
      rcases hcase with ⟨h22a, _, _, _⟩ | ⟨ax, ay, hax, hay, _, hx, hy⟩
      · exact absurd h22a hne22
      · subst hx hy
        have hcnt : countAlpha ((R.set i (canonLetter ax)) ++ [canonLetter ay]) =
            countAlpha R + 2 := by
          rw [countAlpha, countAlpha, List.countP_append,
            countP_set_ft R i _ _ hi (nonalpha_lt25 _ hpi) (alpha_canon_true ax hax),
            countP_single_alpha (alpha_canon_true ay hay)]
        rw [hcnt]
        simp [pendStream, letterStream, roundUpEven]
  | cons ch rest ih =>
    intro R p hbytes hp hch hlast OUT hloop
    have hch256 : ch < 256 := hbytes ch (List.mem_cons_self ch rest)
    have hrest256 : ∀ b ∈ rest, b < 256 := fun b hb => hbytes b (List.mem_cons_of_mem ch hb)
    by_cases halpha : 26 ≤ (ch + 256 - 97) % 256
    · have hna : isLowerAlpha ch = false := by
        simp only [isLowerAlpha, decide_eq_false_iff_not]
        intro hc
        have := (alpha_iff ch hch256).mpr hc
        omega
      rw [loop_copy c e ch rest R p halpha] at hloop
      have hps : pendStream (R ++ [ch]) p = pendStream R p := by
        cases p with
        | none => rfl
        | some i =>
          obtain ⟨hi, _⟩ := hp i rfl
          simp only [pendStream]
          rw [getD_app, if_pos hi]
      have hls : letterStream (ch :: rest) = letterStream rest := by
        simp [letterStream, List.filter_cons, hna]
      rw [hls] at hch hlast
      have hrec := ih (R ++ [ch]) p hrest256 (pendInv_append R p hp [ch])
        (by rw [hps]; exact hch) (by rw [hps]; exact hlast) OUT hloop
      have hca : countAlpha (R ++ [ch]) = countAlpha R := by
        rw [countAlpha, countAlpha, List.countP_append, countP_single_nonalpha hna]
        omega
      rw [hrec, hca, hps, hls]
    · push_neg at halpha
      have halpha2 : isLowerAlpha ch = true := by
        simp only [isLowerAlpha, decide_eq_true_eq]
        exact (alpha_iff ch hch256).mp halpha
      have hls : letterStream (ch :: rest) = byteIndex ch :: letterStream rest := by
        simp [letterStream, List.filter_cons, halpha2]
      have hbi : byteIndex ch < 25 := byteIndex_small ch hch256 halpha
      cases p with
      | none =>
        rw [loop_letter_none c e ch rest R halpha] at hloop
        have hps : pendStream (R ++ [byteIndex ch]) (some R.length) = [byteIndex ch] := by
          simp only [pendStream]
          rw [getD_snoc_self]
        have hpi2 : PendInv (R ++ [byteIndex ch]) (some R.length) := by
          intro j hj
          injection hj with hj
          subst hj
          exact ⟨by simp, by rw [getD_snoc_self]; exact hbi⟩
        have hstream : pendStream (R ++ [byteIndex ch]) (some R.length) ++ letterStream rest
            = pendStream R none ++ letterStream (ch :: rest) := by
          rw [hps, hls]
          rfl
        have hrec := ih (R ++ [byteIndex ch]) (some R.length) hrest256 hpi2
          (by rw [hstream]; exact hch) (by rw [hstream]; exact hlast) OUT hloop
        have hca : countAlpha (R ++ [byteIndex ch]) = countAlpha R := by
          rw [countAlpha, countAlpha, List.countP_append,
            countP_single_nonalpha (nonalpha_lt25 _ hbi)]
          omega
        rw [hrec, hca, hstream]
      | some i =>
        obtain ⟨hi, hpi⟩ := hp i rfl
        have hstream0 : pendStream R (some i) ++ letterStream (ch :: rest) =
            R.getD i 0 :: byteIndex ch :: letterStream rest := by
          rw [hls]
          rfl
        rw [hstream0] at hch hlast
        have hne : R.getD i 0 ≠ byteIndex ch := (List.chain'_cons.mp hch).1
        obtain ⟨x, y, hpair, hcase⟩ := pair_total c h (R.getD i 0) (byteIndex ch) hpi hbi e
        rw [loop_pair c e ch rest R i x y halpha hne hpair] at hloop
        rcases hcase with ⟨h22a, h22b, _, _⟩ | ⟨ax, ay, hax, hay, _, hx, hy⟩
        · omega
        · subst hx hy
          have hch2 : (letterStream rest).Chain' (fun a b => a ≠ b) :=
            ((List.chain'_cons.mp hch).2).tail
          have hlast2 : (letterStream rest).length % 2 = 1 →
              (letterStream rest).getLast? ≠ some 22 := by
            intro hodd
            have hlen2 : (R.getD i 0 :: byteIndex ch :: letterStream rest).length % 2 = 1 := by
              simp only [List.length_cons]
              omega
            have hl := hlast hlen2
            cases hls2 : letterStream rest with
            | nil => rw [hls2] at hodd; simp at hodd
            | cons d t =>
              rw [hls2] at hl
              rw [List.getLast?_cons_cons, List.getLast?_cons_cons] at hl
              exact hl
          have hcnt : countAlpha ((R.set i (canonLetter ax)) ++ [canonLetter ay]) =
              countAlpha R + 2 := by
            rw [countAlpha, countAlpha, List.countP_append,
              countP_set_ft R i _ _ hi (nonalpha_lt25 _ hpi) (alpha_canon_true ax hax),
              countP_single_alpha (alpha_canon_true ay hay)]
          have hrec := ih ((R.set i (canonLetter ax)) ++ [canonLetter ay]) none hrest256
            (fun j hj => Option.noConfusion hj) hch2 hlast2 OUT hloop
          rw [hrec, hcnt, hstream0]
          simp only [pendStream, roundUpEven, List.nil_append, List.length_cons]
          omega

/-! ### Round trip on paired letter texts -/

theorem byteIndex_inj_letters (a : Nat) (ha1 : 97 ≤ a) (ha2 : a ≤ 122) (ha3 : a ≠ 106)
    (b : Nat) (hb1 : 97 ≤ b) (hb2 : b ≤ 122) (hb3 : b ≠ 106)
    (heq : byteIndex a = byteIndex b) : a = b := by
  have h1 := canon_byteIndex a (by omega) ha1 ha3
  have h2 := canon_byteIndex b (by omega) hb1 hb3
  rw [← h1, ← h2, heq]

theorem lettersOnly_paired_bounded : ∀ (n : Nat) (ts : List Nat), ts.length ≤ n →
    LettersOnly ts → ts.Chain' (fun a b => a ≠ b) → ts.length % 2 = 0 → Paired ts := by
  intro n
  induction n with
  | zero =>
    intro ts hlen _ _ _
    cases ts with
    | nil => exact Paired.nil
    | cons a t => simp at hlen
  | succ n ihn =>
    intro ts hlen hlo hch hev
    rcases ts with _ | ⟨a, _ | ⟨b, t⟩⟩
    · exact Paired.nil
    · simp at hev
    · have hab := (List.chain'_cons.mp hch).1
      obtain ⟨ha1, ha2, ha3⟩ := hlo a (by simp)
      obtain ⟨hb1, hb2, hb3⟩ := hlo b (by simp)
      refine Paired.pair a b
        (fun hbi => hab (byteIndex_inj_letters a ha1 ha2 ha3 b hb1 hb2 hb3 hbi)) ?_
      apply ihn t
      · simp only [List.length_cons] at hlen
        omega
      · intro x hx
        exact hlo x (by simp [hx])
      · exact ((List.chain'_cons.mp hch).2).tail
      · simp only [List.length_cons] at hev
        omega

theorem lettersOnly_paired (ts : List Nat) (hlo : LettersOnly ts)
    (hch : ts.Chain' (fun a b => a ≠ b)) (hev : ts.length % 2 = 0) : Paired ts :=
  lettersOnly_paired_bounded ts.length ts (Nat.le_refl _) hlo hch hev

theorem roundtrip_core (c : PlayfairCipher) (h : WellBuilt c) :
    ∀ ts : List Nat, Paired ts → LettersOnly ts → ∀ R S : List Nat,
      ∃ out : List Nat, (∀ b ∈ out, 97 ≤ b ∧ b ≤ 122) ∧
        encodeOrDecodeLoop c true ts R none = some (R ++ out) ∧
        encodeOrDecodeLoop c false out S none = some (S ++ ts) := by
  intro ts hpaired
  induction hpaired with
  | nil =>
    intro _ R S
    refine ⟨[], by simp, ?_, ?_⟩
    · rw [List.append_nil]
      exact loop_nil_none c true R
    · rw [List.append_nil]
      exact loop_nil_none c false S
  | @pair a b rest hne hrest ih =>
    intro hlo R S
    obtain ⟨ha1, ha2, ha3⟩ := hlo a (by simp)
    obtain ⟨hb1, hb2, hb3⟩ := hlo b (by simp)
    have hloRest : LettersOnly rest := fun x hx => hlo x (by simp [hx])
    have hbia : byteIndex a < 25 := byteIndex_lt a (by omega) ha1
    have hbib : byteIndex b < 25 := byteIndex_lt b (by omega) hb1
    obtain ⟨ax, ay, hax, hay, haxy, hpair2, hinv⟩ :=
      pair_spec_distinct c h (byteIndex a) (byteIndex b) hbia hbib hne true 1
    obtain ⟨hax1, hax2, hax3⟩ := canon_range ax hax
    obtain ⟨hay1, hay2, hay3⟩ := canon_range ay hay
    obtain ⟨out2, hout2, henc2, hdec2⟩ := ih hloRest (R ++ [canonLetter ax, canonLetter ay])
      (S ++ [a, b])
    refine ⟨canonLetter ax :: canonLetter ay :: out2, ?_, ?_, ?_⟩
    · intro x hx
      rcases List.mem_cons.mp hx with rfl | hx
      · exact ⟨hax1, hax2⟩
      rcases List.mem_cons.mp hx with rfl | hx
      · exact ⟨hay1, hay2⟩
      · exact hout2 x hx
    · have hne2 : (R ++ [byteIndex a]).getD R.length 0 ≠ byteIndex b := by
        rw [getD_snoc_self]
        exact hne
      have hp2 : c.encode_or_decode_pair 2 ((R ++ [byteIndex a]).getD R.length 0)
          (byteIndex b) true = some (canonLetter ax, canonLetter ay) := by
        rw [getD_snoc_self]
        exact hpair2
      rw [loop_letter_none c true a (b :: rest) R (by omega),
        loop_pair c true b rest (R ++ [byteIndex a]) R.length (canonLetter ax)
          (canonLetter ay) (by omega) hne2 hp2,
        set_snoc_self, List.append_assoc]
      exact henc2.trans
        (congrArg some (List.append_assoc R [canonLetter ax, canonLetter ay] out2))
    · have hca : canonLetter (byteIndex a) = a := canon_byteIndex a (by omega) ha1 ha3
      have hcb : canonLetter (byteIndex b) = b := canon_byteIndex b (by omega) hb1 hb3
      have hne3 : (S ++ [ax]).getD S.length 0 ≠ byteIndex (canonLetter ay) := by
        rw [getD_snoc_self, byteIndex_canon ay hay]
        exact haxy
      have hp3 : c.encode_or_decode_pair 2 ((S ++ [ax]).getD S.length 0)
          (byteIndex (canonLetter ay)) false =
          some (canonLetter (byteIndex a), canonLetter (byteIndex b)) := by
        rw [getD_snoc_self, byteIndex_canon ay hay]
        exact hinv rfl 1
      rw [loop_letter_none c false (canonLetter ax) (canonLetter ay :: out2) S (by omega),
        byteIndex_canon ax hax,
        loop_pair c false (canonLetter ay) out2 (S ++ [ax]) S.length
          (canonLetter (byteIndex a)) (canonLetter (byteIndex b)) (by omega) hne3 hp3,
        set_snoc_self, hca, hcb, List.append_assoc]
      exact hdec2.trans (congrArg some (List.append_assoc S [a, b] rest))

/-! ### From loop results to the public api -/

theorem encode_of_loop (c : PlayfairCipher) (text OUT : List Nat)
    (hloop : encodeOrDecodeLoop c true text [] none = some OUT) (hutf : Utf8 OUT) :
    c.encode text = some OUT := by
  simp only [PlayfairCipher.encode, PlayfairCipher.encode_or_decode, hloop]
  rw [if_pos (utf8_isUtf8 hutf)]

theorem decode_of_loop (c : PlayfairCipher) (text OUT : List Nat)
    (hloop : encodeOrDecodeLoop c false text [] none = some OUT) (hutf : Utf8 OUT) :
    c.decode text = some OUT := by
  simp only [PlayfairCipher.decode, PlayfairCipher.encode_or_decode, hloop]
  rw [if_pos (utf8_isUtf8 hutf)]

theorem encode_or_decode_loop_eq (c : PlayfairCipher) (text OUT : List Nat) (e : Bool)
    (h : c.encode_or_decode text e = some OUT) :
    encodeOrDecodeLoop c e text [] none = some OUT := by
  rw [PlayfairCipher.encode_or_decode] at h
  cases hl : encodeOrDecodeLoop c e text [] none with
  | none => rw [hl] at h; exact Option.noConfusion h
  | some out =>
    rw [hl] at h
    simp only at h
    by_cases hu : isUtf8 out = true
    · rw [if_pos hu] at h
      injection h with h
      rw [h]
    · rw [if_neg hu] at h
      exact Option.noConfusion h

/-! ### Head congruence and the i/j merge -/

theorem loop_split_fail (c : PlayfairCipher) (e : Bool) (ch : Nat) (rest R : List Nat)
    (i : Nat) (h : (ch + 256 - 97) % 256 < 26) (heq : R.getD i 0 = byteIndex ch)
    (hp : c.encode_or_decode_pair 2 (R.getD i 0) 22 e = none) :
    encodeOrDecodeLoop c e (ch :: rest) R (some i) = none := by
  simp only [byteIndex] at heq hp ⊢
  simp only [encodeOrDecodeLoop]
  rw [if_neg (by omega)]
  simp only [if_pos heq, hp]

theorem loop_pair_fail (c : PlayfairCipher) (e : Bool) (ch : Nat) (rest R : List Nat)
    (i : Nat) (h : (ch + 256 - 97) % 256 < 26) (hne : R.getD i 0 ≠ byteIndex ch)
    (hp : c.encode_or_decode_pair 2 (R.getD i 0) (byteIndex ch) e = none) :
    encodeOrDecodeLoop c e (ch :: rest) R (some i) = none := by
  simp only [byteIndex] at hne hp ⊢
  simp only [encodeOrDecodeLoop]
  rw [if_neg (by omega)]
  simp only [if_neg hne, hp]

theorem loop_head_congr (c : PlayfairCipher) (e : Bool) (ch1 ch2 : Nat)
    (hcopy : 26 ≤ (ch1 + 256 - 97) % 256 ↔ 26 ≤ (ch2 + 256 - 97) % 256)
    (hcopyEq : 26 ≤ (ch1 + 256 - 97) % 256 → ch1 = ch2)
    (hbi : byteIndex ch1 = byteIndex ch2)
    (t1 t2 : List Nat) (R : List Nat) (p : Option Nat)
    (ihach : ∀ (S : List Nat) (q : Option Nat),
      encodeOrDecodeLoop c e t1 S q = encodeOrDecodeLoop c e t2 S q) :
    encodeOrDecodeLoop c e (ch1 :: t1) R p = encodeOrDecodeLoop c e (ch2 :: t2) R p := by
  by_cases hc : 26 ≤ (ch1 + 256 - 97) % 256
  · have hc2 := hcopy.mp hc
    have he := hcopyEq hc
    rw [loop_copy c e ch1 t1 R p hc, loop_copy c e ch2 t2 R p hc2, he]
    exact ihach (R ++ [ch2]) p
  · have hc2 : ¬26 ≤ (ch2 + 256 - 97) % 256 := fun h2 => hc (hcopy.mpr h2)
    push_neg at hc hc2
    cases p with
    | none =>
      rw [loop_letter_none c e ch1 t1 R hc, loop_letter_none c e ch2 t2 R hc2, hbi]
      exact ihach _ _
    | some i =>
      by_cases heq : R.getD i 0 = byteIndex ch1
      · cases hpair : c.encode_or_decode_pair 2 (R.getD i 0) 22 e with
        | none =>
          rw [loop_split_fail c e ch1 t1 R i hc heq hpair,
            loop_split_fail c e ch2 t2 R i hc2 (hbi ▸ heq) hpair]
        | some xy =>
          obtain ⟨x, y⟩ := xy
          rw [loop_split c e ch1 t1 R i x y hc heq hpair,
            loop_split c e ch2 t2 R i x y hc2 (hbi ▸ heq) hpair, hbi]
          exact ihach _ _
      · have heq2 : R.getD i 0 ≠ byteIndex ch2 := hbi ▸ heq
        cases hpair : c.encode_or_decode_pair 2 (R.getD i 0) (byteIndex ch1) e with
        | none =>
          rw [loop_pair_fail c e ch1 t1 R i hc heq hpair,
            loop_pair_fail c e ch2 t2 R i hc2 heq2 (hbi ▸ hpair)]
        | some xy =>
          obtain ⟨x, y⟩ := xy
          rw [loop_pair c e ch1 t1 R i x y hc heq hpair,
            loop_pair c e ch2 t2 R i x y hc2 heq2 (hbi ▸ hpair)]
          exact ihach _ _

theorem loop_jmap (c : PlayfairCipher) (e : Bool) :
    ∀ (text R : List Nat) (p : Option Nat),
      encodeOrDecodeLoop c e (text.map jmap) R p = encodeOrDecodeLoop c e text R p := by
  intro text
  induction text with
  | nil =>
    intro R p
    rfl
  | cons ch rest ih =>
    intro R p
    rw [List.map_cons]
    by_cases hj : ch = 106
    · subst hj
      rw [show jmap 106 = 105 from rfl]
      exact loop_head_congr c e 105 106 (by decide) (by decide) rfl
        (rest.map jmap) rest R p ih
    · rw [show jmap ch = ch by simp only [jmap, if_neg hj]]
      exact loop_head_congr c e ch ch Iff.rfl (fun _ => rfl) rfl
        (rest.map jmap) rest R p ih

/-! ### The claims -/

set_option maxRecDepth 1000000 in
/-- C1 counterexample: the text "a" is composed of lowercase letters, has no j
and no immediately-repeated letter, yet decode (encode "a") is "ax", not "a":
an odd letter count is padded with the filler and the round trip fails. -/
theorem claim_C1_counterexample :
    LettersOnly [97] ∧ [97].Chain' (fun a b => a ≠ b) ∧
      (PlayfairCipher.new []).encode [97] = some [99, 118] ∧
      (PlayfairCipher.new []).decode [99, 118] = some [97, 120] ∧
      some [97, 120] ≠ some [97] := by
  refine ⟨?_, ?_, ?_, ?_, ?_⟩
  · simp only [LettersOnly]
    decide
  · simp
  · decide
  · decide
  · decide

/-- C1 (amended): for every engine built by new from any key, and every text of
lowercase letters with no j byte, no two adjacent equal bytes, and an even
length, decoding the encoding returns the original text, both calls
succeeding. -/
theorem claim_C1_roundtrip (key text : List Nat) (hkey : ∀ b ∈ key, b < 256)
    (hlet : LettersOnly text) (hch : text.Chain' (fun a b => a ≠ b))
    (hev : text.length % 2 = 0) :
    ∃ ct : List Nat, (PlayfairCipher.new key).encode text = some ct ∧
      (PlayfairCipher.new key).decode ct = some text := by
  have hW := wellBuilt_new key hkey
  obtain ⟨out, hrange, henc, hdec⟩ := roundtrip_core (PlayfairCipher.new key) hW text
    (lettersOnly_paired text hlet hch hev) hlet [] []
  refine ⟨out, ?_, ?_⟩
  · exact encode_of_loop _ text out henc (utf8_of_ascii (fun b hb => by
      have := hrange b hb
      omega))
  · exact decode_of_loop _ out text hdec (utf8_of_ascii (fun b hb => by
      obtain ⟨h1, h2, _⟩ := hlet b hb
      omega))

set_option maxRecDepth 1000000 in
/-- C1 witness: the round trip at the empty key and the text "ab". -/
theorem claim_C1_roundtrip_witness :
    (∀ b ∈ ([] : List Nat), b < 256) ∧ LettersOnly [97, 98] ∧
      [97, 98].Chain' (fun a b => a ≠ b) ∧ [97, 98].length % 2 = 0 ∧
      ∃ ct : List Nat, (PlayfairCipher.new []).encode [97, 98] = some ct ∧
        (PlayfairCipher.new []).decode ct = some [97, 98] :=
  ⟨by decide, by simp only [LettersOnly]; decide, by simp, by decide,
    claim_C1_roundtrip [] [97, 98] (by decide) (by simp only [LettersOnly]; decide)
      (by simp) (by decide)⟩

set_option maxRecDepth 1000000 in
/-- C2: the two concrete vectors of the source tests: the key
"playfair example" encodes "hide the gold in the tree stump" to exactly
"bmod zbx dnab ek udm uixmm ouvif", and the key "gravity falls" encodes
"attack at dawn" to exactly "gffgbm gf nfaw", both returning Ok. -/
theorem claim_C2_vectors :
    (PlayfairCipher.new keyWikipedia).encode plainWikipedia = some cipherWikipedia ∧
      (PlayfairCipher.new keyGravity).encode plainGravity = some cipherGravity := by
  constructor
  · decide
  · decide

/-- C3: for every key and every valid UTF-8 input, both directions of
encode_or_decode return some output: the from_utf8 reassembly never fails,
because the loop output is again valid UTF-8. -/
theorem claim_C3_total (key text : List Nat) (hkey : ∀ b ∈ key, b < 256)
    (htext : Utf8 text) (e : Bool) :
    ∃ out, (PlayfairCipher.new key).encode_or_decode text e = some out := by
  have hW := wellBuilt_new key hkey
  obtain ⟨OUT, hloop, _, _, _⟩ := loop_master (PlayfairCipher.new key) hW e text [] none
    (utf8_bytes_lt htext) (fun i hi => Option.noConfusion hi)
  have hutf : Utf8 OUT := loop_utf8 (PlayfairCipher.new key) hW e htext [] none Utf8.nil
    (fun i hi => Option.noConfusion hi) OUT hloop
  refine ⟨OUT, ?_⟩
  simp only [PlayfairCipher.encode_or_decode, hloop]
  rw [if_pos (utf8_isUtf8 hutf)]

set_option maxRecDepth 1000000 in
/-- C3 witness: encoding the valid UTF-8 text "a" under the empty key
succeeds. -/
theorem claim_C3_total_witness :
    (∀ b ∈ ([] : List Nat), b < 256) ∧ Utf8 [97] ∧
      ∃ out, (PlayfairCipher.new []).encode_or_decode [97] true = some out :=
  ⟨by decide, Utf8.one (by decide) Utf8.nil,
    claim_C3_total [] [97] (by decide) (Utf8.one (by decide) Utf8.nil) true⟩

set_option maxRecDepth 1000000 in
/-- C4 counterexample: on the square of the empty key, the both-filler pair
(22, 22) is returned as the raw indices 22, which are not letters of the
alphabet (byte 22 is an ASCII control character, not a lowercase letter). -/
theorem claim_C4_counterexample :
    (PlayfairCipher.new []).encode_or_decode_pair 2 22 22 true = some (22, 22) ∧
      ¬(97 ≤ 22) := by
  constructor
  · decide
  · decide

/-- C4 (amended): for every engine built by new, every pair of alphabet
indices 0-24 not both equal to the filler index 22, and either direction,
both bytes returned by encode_or_decode_pair are letters of the 25-letter
alphabet: lowercase, never j.  (In the excluded identical-position case the
pair is returned unchanged as raw indices, which are not letters.) -/
theorem claim_C4_letters (key : List Nat) (hkey : ∀ b ∈ key, b < 256) (a b : Nat)
    (ha : a < 25) (hb : b < 25) (hnot : ¬(a = 22 ∧ b = 22)) (e : Bool) :
    ∃ x y, (PlayfairCipher.new key).encode_or_decode_pair 2 a b e = some (x, y) ∧
      97 ≤ x ∧ x ≤ 122 ∧ x ≠ 106 ∧ 97 ≤ y ∧ y ≤ 122 ∧ y ≠ 106 := by
  obtain ⟨x, y, hp, hcase⟩ := pair_total _ (wellBuilt_new key hkey) a b ha hb e
  rcases hcase with ⟨h1, h2, _, _⟩ | ⟨ax, ay, hax, hay, _, hx, hy⟩
  · exact absurd ⟨h1, h2⟩ hnot
  · subst hx hy
    obtain ⟨q1, q2, q3⟩ := canon_range ax hax
    obtain ⟨r1, r2, r3⟩ := canon_range ay hay
    exact ⟨_, _, hp, q1, q2, q3, r1, r2, r3⟩

set_option maxRecDepth 1000000 in
/-- C4 witness: the pair (0, 1) on the empty-key square encodes to two
alphabet letters. -/
theorem claim_C4_letters_witness :
    ¬((0 : Nat) = 22 ∧ (1 : Nat) = 22) ∧
      ∃ x y, (PlayfairCipher.new []).encode_or_decode_pair 2 0 1 true = some (x, y) ∧
        97 ≤ x ∧ x ≤ 122 ∧ x ≠ 106 ∧ 97 ≤ y ∧ y ≤ 122 ∧ y ≠ 106 :=
  ⟨by decide, claim_C4_letters [] (by decide) 0 1 (by decide) (by decide) (by decide) true⟩

set_option maxRecDepth 1000000 in
/-- C5 counterexample: "aa" has 2 alphabetic letters, so the claimed count is
roundUpEven 2 = 2, but the doubled letter is split with a filler and the
output "cvcv" has 4 alphabetic letters. -/
theorem claim_C5_counterexample :
    (PlayfairCipher.new []).encode [97, 97] = some [99, 118, 99, 118] ∧
      countAlpha [99, 118, 99, 118] = 4 ∧ roundUpEven (countAlpha [97, 97]) = 2 := by
  refine ⟨?_, ?_, ?_⟩
  · decide
  · decide
  · decide

/-- C5 (amended): for every engine and input, the alphabetic-letter count of
encode's output is even; and it equals the input's alphabetic count rounded
up to the nearest even number provided the input's merged-letter stream has
no two adjacent equal indices and, when of odd length, does not end in the
filler index. -/
theorem claim_C5_length (key text : List Nat) (hkey : ∀ b ∈ key, b < 256)
    (htext : ∀ b ∈ text, b < 256) (OUT : List Nat)
    (henc : (PlayfairCipher.new key).encode text = some OUT) :
    countAlpha OUT % 2 = 0 ∧
      ((letterStream text).Chain' (fun a b => a ≠ b) →
        ((letterStream text).length % 2 = 1 → (letterStream text).getLast? ≠ some 22) →
        countAlpha OUT = roundUpEven (countAlpha text)) := by
  have hW := wellBuilt_new key hkey
  have hloop := encode_or_decode_loop_eq _ text OUT true henc
  constructor
  · obtain ⟨OUT2, hloop2, _, hpar, _⟩ := loop_master _ hW true text [] none htext
      (fun i hi => Option.noConfusion hi)
    rw [hloop] at hloop2
    injection hloop2 with h2
    subst h2
    exact hpar (by decide)
  · intro hch hlast
    have hcnt := loop_count _ hW true text [] none htext
      (fun i hi => Option.noConfusion hi) hch hlast OUT hloop
    rw [hcnt]
    have hlen : (letterStream text).length = countAlpha text := by
      simp [letterStream, countAlpha, List.countP_eq_length_filter]
    show 0 + roundUpEven (letterStream text).length = roundUpEven (countAlpha text)
    rw [hlen]
    omega

set_option maxRecDepth 1000000 in
/-- C5 witness: "abc" has 3 letters and encodes to "bchc" with 4 = roundUpEven 3
alphabetic letters. -/
theorem claim_C5_length_witness :
    (∀ b ∈ ([] : List Nat), b < 256) ∧ (∀ b ∈ [97, 98, 99], b < 256) ∧
      (PlayfairCipher.new []).encode [97, 98, 99] = some [98, 99, 104, 99] ∧
      (countAlpha [98, 99, 104, 99] % 2 = 0 ∧
        ((letterStream [97, 98, 99]).Chain' (fun a b => a ≠ b) →
          ((letterStream [97, 98, 99]).length % 2 = 1 →
            (letterStream [97, 98, 99]).getLast? ≠ some 22) →
          countAlpha [98, 99, 104, 99] = roundUpEven (countAlpha [97, 98, 99]))) :=
  ⟨by decide, by decide, by decide,
    claim_C5_length [] [97, 98, 99] (by decide) (by decide) [98, 99, 104, 99] (by decide)⟩

/-- C6: for every key, the positions table built by new has 25 entries, each
an interior cell (row and column in 1..5 of the encoded row*8+col form), the
mapping is injective, and every interior cell is hit: a bijection with no
collisions, no gaps, and no index left at the unassigned marker. -/
theorem claim_C6_bijective (key : List Nat) (hkey : ∀ b ∈ key, b < 256) :
    (PlayfairCipher.new key).positions.length = 25 ∧
      (∀ a, a < 25 → Interior ((PlayfairCipher.new key).positions.getD a 0)) ∧
      (∀ a, a < 25 → ∀ b, b < 25 →
        (PlayfairCipher.new key).positions.getD a 0 =
          (PlayfairCipher.new key).positions.getD b 0 → a = b) ∧
      (∀ p, Interior p → ∃ a, a < 25 ∧ (PlayfairCipher.new key).positions.getD a 0 = p) := by
  have hW := wellBuilt_new key hkey
  exact ⟨hW.posLen, hW.interior, hW.inj, fun p hp => positions_surj _ hW p hp⟩

set_option maxRecDepth 1000000 in
/-- C6 witness: bijectivity of the square built from the empty key. -/
theorem claim_C6_bijective_witness :
    (∀ b ∈ ([] : List Nat), b < 256) ∧
      ((PlayfairCipher.new []).positions.length = 25 ∧
        (∀ a, a < 25 → Interior ((PlayfairCipher.new []).positions.getD a 0)) ∧
        (∀ a, a < 25 → ∀ b, b < 25 →
          (PlayfairCipher.new []).positions.getD a 0 =
            (PlayfairCipher.new []).positions.getD b 0 → a = b) ∧
        (∀ p, Interior p → ∃ a, a < 25 ∧ (PlayfairCipher.new []).positions.getD a 0 = p)) :=
  ⟨by decide, claim_C6_bijective [] (by decide)⟩

set_option maxRecDepth 1000000 in
/-- C7 counterexample: encoding "x " keeps the space but surrounds it with two
raw bytes of value 22, which are non-alphabetic: the non-alphabetic bytes of
the output are [22, 32, 22], not the input's [32], so the input's
non-alphabetic bytes do not keep their relative positions among them. -/
theorem claim_C7_counterexample :
    (PlayfairCipher.new []).encode [120, 32] = some [22, 32, 22] ∧
      [120, 32].filter (fun b => !isLowerAlpha b) = [32] ∧
      [22, 32, 22].filter (fun b => !isLowerAlpha b) = [22, 32, 22] := by
  refine ⟨?_, ?_, ?_⟩
  · decide
  · decide
  · decide

/-- C7 (amended): for every engine, input, and direction, the input's
non-alphabetic bytes appear unchanged and in order as a subsequence of the
output's non-alphabetic bytes, and the output's non-alphabetic bytes are
exactly the input's with possibly extra bytes of value 22 inserted (so after
discarding bytes 22 the two agree exactly). -/
theorem claim_C7_passthrough (key text : List Nat) (hkey : ∀ b ∈ key, b < 256)
    (htext : ∀ b ∈ text, b < 256) (e : Bool) (OUT : List Nat)
    (h : (PlayfairCipher.new key).encode_or_decode text e = some OUT) :
    (text.filter (fun b => !isLowerAlpha b)).Sublist
        (OUT.filter (fun b => !isLowerAlpha b)) ∧
      (OUT.filter (fun b => !isLowerAlpha b)).filter (fun b => decide (b ≠ 22)) =
        (text.filter (fun b => !isLowerAlpha b)).filter (fun b => decide (b ≠ 22)) := by
  have hW := wellBuilt_new key hkey
  have hloop := encode_or_decode_loop_eq _ text OUT e h
  obtain ⟨OUT2, hloop2, _, _, hins⟩ := loop_master _ hW e text [] none htext
    (fun i hi => Option.noConfusion hi)
  rw [hloop] at hloop2
  injection hloop2 with h2
  subst h2
  exact ⟨ins22_sublist hins, (ins22_filter_ne22 hins).symm⟩

set_option maxRecDepth 1000000 in
/-- C7 witness: the passthrough property at the input "a " whose encoding is
"c v". -/
theorem claim_C7_passthrough_witness :
    (PlayfairCipher.new []).encode_or_decode [97, 32] true = some [99, 32, 118] ∧
      (([97, 32].filter (fun b => !isLowerAlpha b)).Sublist
          ([99, 32, 118].filter (fun b => !isLowerAlpha b)) ∧
        ([99, 32, 118].filter (fun b => !isLowerAlpha b)).filter
            (fun b => decide (b ≠ 22)) =
          ([97, 32].filter (fun b => !isLowerAlpha b)).filter
            (fun b => decide (b ≠ 22))) :=
  ⟨by decide, claim_C7_passthrough [] [97, 32] (by decide) (by decide) true
    [99, 32, 118] (by decide)⟩

/-- C8: for every key and every input text, encode applied to the text equals
encode applied to the text with every lowercase j byte replaced by i
beforehand. -/
theorem claim_C8_ij_merge (key text : List Nat) :
    (PlayfairCipher.new key).encode text =
      (PlayfairCipher.new key).encode (text.map jmap) := by
  simp only [PlayfairCipher.encode, PlayfairCipher.encode_or_decode, loop_jmap]

/-- C9: on every square built by new, the pair substitution returns a result
within fuel 2 for all alphabet indices and both directions, extra fuel never
changes the result, and the identical-position case with a non-filler first
index re-dispatches exactly once into the filler substitution, whose two
positions differ so the identical-position case cannot fire again. -/
theorem claim_C9_bounded (key : List Nat) (hkey : ∀ b ∈ key, b < 256) (a b : Nat)
    (ha : a < 25) (hb : b < 25) (e : Bool) :
    (∃ x y, (PlayfairCipher.new key).encode_or_decode_pair 2 a b e = some (x, y)) ∧
      (∀ f, (PlayfairCipher.new key).encode_or_decode_pair (f + 2) a b e =
        (PlayfairCipher.new key).encode_or_decode_pair 2 a b e) ∧
      (a = b → a ≠ 22 →
        (PlayfairCipher.new key).encode_or_decode_pair 2 a b e =
          (PlayfairCipher.new key).encode_or_decode_pair 1 a 22 e ∧
        (PlayfairCipher.new key).positions.getD a 0 ≠
          (PlayfairCipher.new key).positions.getD 22 0) := by
  have hW := wellBuilt_new key hkey
  obtain ⟨x, y, hp, _⟩ := pair_total _ hW a b ha hb e
  refine ⟨⟨x, y, hp⟩, fun f => pair_fuel _ hW a b ha hb e f, fun hab h22 => ⟨?_, ?_⟩⟩
  · subst hab
    exact pair_id_step (PlayfairCipher.new key) a h22 e 0
  · exact fun heq => h22 (hW.inj a ha 22 (by omega) heq)

set_option maxRecDepth 1000000 in
/-- C9 witness: bounded recursion at the identical pair (0, 0) on the
empty-key square. -/
theorem claim_C9_bounded_witness :
    (∀ b ∈ ([] : List Nat), b < 256) ∧
      ((∃ x y, (PlayfairCipher.new []).encode_or_decode_pair 2 0 0 true = some (x, y)) ∧
        (∀ f, (PlayfairCipher.new []).encode_or_decode_pair (f + 2) 0 0 true =
          (PlayfairCipher.new []).encode_or_decode_pair 2 0 0 true) ∧
        ((0 : Nat) = 0 → (0 : Nat) ≠ 22 →
          (PlayfairCipher.new []).encode_or_decode_pair 2 0 0 true =
            (PlayfairCipher.new []).encode_or_decode_pair 1 0 22 true ∧
          (PlayfairCipher.new []).positions.getD 0 0 ≠
            (PlayfairCipher.new []).positions.getD 22 0)) :=
  ⟨by decide, claim_C9_bounded [] (by decide) 0 0 (by decide) (by decide) true⟩

/-- C10: for every key (including keys containing j) and every input of bytes,
the output of encode never contains the byte of the letter j. -/
theorem claim_C10_no_j (key text : List Nat) (hkey : ∀ b ∈ key, b < 256)
    (htext : ∀ b ∈ text, b < 256) (OUT : List Nat)
    (h : (PlayfairCipher.new key).encode text = some OUT) : 106 ∉ OUT := by
  have hW := wellBuilt_new key hkey
  have hloop := encode_or_decode_loop_eq _ text OUT true h
  obtain ⟨OUT2, hloop2, hno, _, _⟩ := loop_master _ hW true text [] none htext
    (fun i hi => Option.noConfusion hi)
  rw [hloop] at hloop2
  injection hloop2 with h2
  subst h2
  exact hno (by simp)

set_option maxRecDepth 1000000 in
/-- C10 witness: encoding "j" under the empty key yields "hy", with no j
byte. -/
theorem claim_C10_no_j_witness :
    (∀ b ∈ ([] : List Nat), b < 256) ∧ (∀ b ∈ [106], b < 256) ∧
      (PlayfairCipher.new []).encode [106] = some [104, 121] ∧ 106 ∉ [104, 121] :=
  ⟨by decide, by decide, by decide,
    claim_C10_no_j [] [106] (by decide) (by decide) [104, 121] (by decide)⟩

end Playfair
